import Mathlib

/-!
Verification of the blob-analysis pipeline orchestrated by
`src/static/scripts/fiji/Blob_Analysis.py`.

The script drives a host image-processing application through five stages
on one single-channel raster: a radius-2 median filter, automatic
("Default"/isodata) threshold selection, conversion to a binary mask,
watershed splitting of touching blobs, and particle analysis
(connected-component labeling, per-component measurement with
`size=50-Infinity`, edge exclusion, and `redirect=None`).  The algorithms
themselves live in the host library, not in the repository, so each stage
below is a shallow embedding modelled from the specification's contracts,
with the parameters fixed by the script where the script fixes them.

Conventions chosen (and documented) where the specification requires a
choice: 8-connectivity for components, chessboard (Chebyshev) distance for
the watershed distance map, lower-middle median for even-sized
neighborhoods, raster-scan order (row-major, y outer) for tie-breaking and
discovery order.
-/

namespace BlobAnalysis

/-- A pixel position, `(x, y)` with `x` the column and `y` the row. -/
abbrev Pos := Nat × Nat

/-- A single-channel raster: width, height and an intensity sample per
position (only positions with `x < w` and `y < h` are meaningful). -/
structure Img where
  w : Nat
  h : Nat
  pix : Nat → Nat → Nat

/-- A binary mask: width, height and a foreground flag per position. -/
structure Mask where
  w : Nat
  h : Nat
  fg : Nat → Nat → Bool

/-- A map of integer labels; `0` is background. -/
structure LabelMap where
  w : Nat
  h : Nat
  lab : Nat → Nat → Nat

/-- All in-range positions of a `w × h` grid in raster-scan order
(row-major: `y` outer, `x` inner). -/
def scanPos (w h : Nat) : List Pos :=
  (List.range h).flatMap (fun y => (List.range w).map (fun x => (x, y)))

/-! ### Stage 1: Denoiser (script line 4, `Median... radius=2`).

Modelled from the spec: the host's rank filter is not in the repository;
per §4.1 the output pixel is the median of the intensities in a
disk-shaped neighborhood of the given radius, truncated (not padded) at
the image edges.  For even-sized truncated neighborhoods we take the
lower-middle element of the sorted values. -/

/-- Insert a value into a sorted list, keeping it sorted (ascending). -/
def insertSorted (v : Nat) : List Nat → List Nat
  | [] => [v]
  | a :: l => if v ≤ a then v :: a :: l else a :: insertSorted v l

/-- Insertion sort, ascending. -/
def sortAsc (l : List Nat) : List Nat := l.foldr insertSorted []

/-- Median of a list of intensities: lower-middle element of the sorted
list (`0` for an empty list, which never occurs for a pixel of a
non-empty image). -/
def medianOf (l : List Nat) : Nat := (sortAsc l).getD ((l.length - 1) / 2) 0

/-- The intensities in the radius-`r` disk around `(x, y)`, truncated to
the image bounds.  The disk holds the offsets `(dx, dy)` with
`dx² + dy² ≤ r²`. -/
def diskVals (img : Img) (r : Nat) (x y : Nat) : List Nat :=
  ((scanPos img.w img.h).filter (fun q =>
      ((q.1 : Int) - (x : Int)) ^ 2 + ((q.2 : Int) - (y : Int)) ^ 2 ≤ (r : Int) ^ 2)).map
    (fun q => img.pix q.1 q.2)

/-- `denoise img r`: median filter of radius `r` (spec §4.1). -/
def denoise (img : Img) (r : Nat) : Img :=
  ⟨img.w, img.h, fun x y =>
    if x < img.w ∧ y < img.h then medianOf (diskVals img r x y) else 0⟩

/-! ### Stage 2: Binarizer (script lines 5–7).

Modelled from the spec: the host's "Default" auto-threshold is not in the
repository; per §4.2 it is the iterative isodata balancing of the two
class means, started at the global mean intensity, stopped on
stabilization or when an iteration cap is hit.  The script's
`Options... black` plus "Default" selects dark objects on a light
background, so the foreground is the class *below or at* the threshold.
A perfectly flat image binarizes to the all-background mask. -/

/-- The list of all in-range intensity samples of an image, in raster-scan
order. -/
def imgVals (img : Img) : List Nat :=
  (scanPos img.w img.h).map (fun p => img.pix p.1 p.2)

/-- `true` iff every sample of the image equals every other (this includes
the zero-sized image). -/
def isFlat (img : Img) : Bool :=
  match imgVals img with
  | [] => true
  | v :: rest => rest.all (fun u => u == v)

/-- A threshold value carried as an exact non-negative fraction
`(numerator, denominator)` — rational thresholds such as `127.5` arise
from class-mean averaging, and the exact pair representation keeps every
comparison in `Nat` arithmetic. -/
abbrev Thr := Nat × Nat

/-- `v ≤ t` for a sample `v` and an exact fractional threshold `t`. -/
def thrLe (v : Nat) (t : Thr) : Bool :=
  decide (v * t.2 ≤ t.1)

/-- Equality of two exact fractional thresholds (cross-multiplication). -/
def thrEq (t u : Thr) : Bool :=
  decide (t.1 * u.2 = u.1 * t.2)

/-- Exact mean of a list of samples, as a fraction `(sum, count)`. -/
def meanFrac (l : List Nat) : Thr :=
  (l.foldl (· + ·) 0, l.length)

/-- One isodata refinement: split the samples at the current threshold
and average the two class means (spec §4.2) —
`(s₁/c₁ + s₂/c₂) / 2 = (s₁·c₂ + s₂·c₁) / (2·c₁·c₂)` exactly. -/
def isodataStep (vals : List Nat) (t : Thr) : Thr :=
  let lo := meanFrac (vals.filter (fun v => thrLe v t))
  let hi := meanFrac (vals.filter (fun v => !thrLe v t))
  (lo.1 * hi.2 + hi.1 * lo.2, 2 * lo.2 * hi.2)

/-- The isodata convergence loop, bounded by an explicit iteration cap
(first argument): recompute the threshold until it stabilizes or the cap
runs out (spec §4.2). -/
def isodataLoop (vals : List Nat) : Nat → Thr → Thr
  | 0, t => t
  | n + 1, t =>
    if thrEq (isodataStep vals t) t then t
    else isodataLoop vals n (isodataStep vals t)

/-- Iteration cap of the isodata loop: 254 steps always suffice for 8-bit
data and protect against non-convergence. -/
def isodataCap : Nat := 254

/-- Automatic global threshold: isodata loop started at the mean
intensity. -/
def isodataThreshold (vals : List Nat) : Thr :=
  isodataLoop vals isodataCap (meanFrac vals)

/-- Polarity configuration of the binarizer: `darkObjects = true` is the
script's convention (dark blobs on a light background). -/
structure BinCfg where
  darkObjects : Bool
  deriving DecidableEq

/-- `binarize img cfg`: global isodata threshold plus mask production
(spec §4.2).  A flat image deterministically yields the all-background
mask.  With dark polarity the foreground is the class `≤ threshold`. -/
def binarize (img : Img) (cfg : BinCfg) : Mask :=
  if isFlat img then ⟨img.w, img.h, fun _ _ => false⟩
  else
    ⟨img.w, img.h, fun x y =>
      decide (x < img.w) && decide (y < img.h) &&
        (if cfg.darkObjects then
          thrLe (img.pix x y) (isodataThreshold (imgVals img))
         else !thrLe (img.pix x y) (isodataThreshold (imgVals img)))⟩

/-! ### Stage 5: Measurer/Filter (script lines 9–10).

Modelled from the spec: the host's particle analyzer is not in the
repository; per §4.5 it accumulates, for each non-zero label, the pixel
count, sum/min/max intensity and centroid (mean member position), then
drops records below the minimum area (`size=50-Infinity` in the script:
lower bound 50, inclusive, no upper bound) and, when edge exclusion is on
(`exclude` in the script), records touching the image border.  The
intensity raster the records are read from is an explicit argument; the
script's `redirect=None` makes it the host's current image, i.e. the
post-binarization mask. -/

/-- The member pixels of label `L` of a label map, in raster-scan order. -/
def membersOf (lm : LabelMap) (L : Nat) : List Pos :=
  (scanPos lm.w lm.h).filter (fun p => lm.lab p.1 p.2 == L)

/-- Sum of an image's intensities over a list of positions. -/
def sumOver (img : Img) (ps : List Pos) : Nat :=
  (ps.map (fun p => img.pix p.1 p.2)).foldl (· + ·) 0

/-- Minimum of a list of intensities (`0` when empty). -/
def minOver (l : List Nat) : Nat :=
  match l with
  | [] => 0
  | v :: rest => rest.foldl Nat.min v

/-- Maximum of a list of intensities. -/
def maxOver (l : List Nat) : Nat := l.foldl Nat.max 0

/-- One results-table row (spec §3 `ParticleRecord`): area (pixel count,
calibration 1), intensity statistics, the centroid's coordinate sums, and
the border-contact flag.  The sums are exact accumulators; the rational
views (mean intensity, centroid coordinates, integrated intensity) are
the derived quotients `PRec.meanI`, `PRec.cx`, `PRec.cy`,
`PRec.intDen`. -/
structure PRec where
  lab : Nat
  area : Nat
  sumI : Nat
  minI : Nat
  maxI : Nat
  sumX : Nat
  sumY : Nat
  onEdge : Bool
  deriving DecidableEq

/-- Mean intensity of a record: sum over area. -/
def PRec.meanI (r : PRec) : ℚ := (r.sumI : ℚ) / (r.area : ℚ)

/-- Centroid x-coordinate: mean member column. -/
def PRec.cx (r : PRec) : ℚ := (r.sumX : ℚ) / (r.area : ℚ)

/-- Centroid y-coordinate: mean member row. -/
def PRec.cy (r : PRec) : ℚ := (r.sumY : ℚ) / (r.area : ℚ)

/-- Integrated intensity: area × mean = the intensity sum. -/
def PRec.intDen (r : PRec) : ℚ := (r.sumI : ℚ)

/-- Whether some member pixel of label `L` lies on row `0`, row `h-1`,
column `0` or column `w-1` of the image bounds. -/
def touchesBorder (lm : LabelMap) (L : Nat) : Bool :=
  (membersOf lm L).any (fun p =>
    p.1 == 0 || p.1 == lm.w - 1 || p.2 == 0 || p.2 == lm.h - 1)

/-- The measurement accumulator for one label: pixel count, sum/min/max
intensity read from `img`, centroid = mean member position (spec §4.5). -/
def statsFor (lm : LabelMap) (img : Img) (L : Nat) : PRec :=
  let ms := membersOf lm L
  let vals := ms.map (fun p => img.pix p.1 p.2)
  { lab := L
    area := ms.length
    sumI := sumOver img ms
    minI := minOver vals
    maxI := maxOver vals
    sumX := (ms.map (fun p => p.1)).foldl (· + ·) 0
    sumY := (ms.map (fun p => p.2)).foldl (· + ·) 0
    onEdge := touchesBorder lm L }

/-- Remove later duplicates, keeping first occurrences; `seen` carries the
values already emitted. -/
def dedupFirstAux (seen : List Nat) : List Nat → List Nat
  | [] => []
  | a :: l =>
    if a ∈ seen then dedupFirstAux seen l
    else a :: dedupFirstAux (a :: seen) l

/-- Remove later duplicates, keeping first occurrences (the host reports
labels in discovery order). -/
def dedupFirst (l : List Nat) : List Nat := dedupFirstAux [] l

/-- The non-zero labels of a label map in discovery (raster-scan first
occurrence) order. -/
def labelsFirst (lm : LabelMap) : List Nat :=
  dedupFirst (((scanPos lm.w lm.h).map (fun p => lm.lab p.1 p.2)).filter
    (fun L => L ≠ 0))

/-- Measurement options: minimum area (inclusive) and edge exclusion. -/
structure MeasureOpts where
  minArea : Nat
  excludeEdge : Bool
  deriving DecidableEq

/-- Whether a record survives the exclusion policy of spec §4.5: area at
least `minArea` (inclusive, no upper bound) and, when `excludeEdge` is on,
no member pixel on the image border. -/
def keepRec (opts : MeasureOpts) (r : PRec) : Bool :=
  decide (opts.minArea ≤ r.area) && (!opts.excludeEdge || !r.onEdge)

/-- `measure lm img opts`: the results table, one record per surviving
non-zero label, in discovery order (spec §4.5). -/
def measure (lm : LabelMap) (img : Img) (opts : MeasureOpts) : List PRec :=
  (labelsFirst lm).filterMap (fun L =>
    let r := statsFor lm img L
    if keepRec opts r then some r else none)

/-! ### Stage 4: Labeler (part of script line 10, `Analyze Particles...`).

Modelled from the spec: connected-component extraction over a mask, with
8-connectivity (the conventional choice §4.4 asks an implementation to
fix and document) and labels assigned in raster-scan discovery order.
The component of a pixel is computed as the fixpoint of frontier
expansion; `w*h` expansion rounds always reach the fixpoint. -/

/-- Bool 8-adjacency: distinct positions whose coordinates differ by at
most one in each axis. -/
def adjB (p q : Pos) : Bool :=
  decide (p ≠ q) && decide (Nat.dist p.1 q.1 ≤ 1) &&
    decide (Nat.dist p.2 q.2 ≤ 1)

/-- The in-range 8-neighbors of a position, in raster-scan order. -/
def neighborsOf (w h : Nat) (p : Pos) : List Pos :=
  (scanPos w h).filter (fun q => adjB p q)

/-- Chains of 8-adjacent positions inside the set `S`: the notion of a
connected pixel set used by the spec's guarantees. -/
inductive ReachIn (S : Pos → Prop) : Pos → Pos → Prop
  | refl (p : Pos) : S p → ReachIn S p p
  | tail (p q r : Pos) : ReachIn S p q → S r → adjB q r = true → ReachIn S p r

/-- One frontier expansion: append the in-range foreground neighbors of
the current set that are not yet in it. -/
def expandOnce (w h : Nat) (P : Pos → Bool) (S : List Pos) : List Pos :=
  S ++ ((S.flatMap (neighborsOf w h)).filter
    (fun q => P q && !(S.contains q))).dedup

/-- Iterated frontier expansion, stopping at stabilization or when the
fuel runs out. -/
def reachAux (w h : Nat) (P : Pos → Bool) : Nat → List Pos → List Pos
  | 0, S => S
  | fuel + 1, S =>
    if (expandOnce w h P S).length = S.length then S
    else reachAux w h P fuel (expandOnce w h P S)

/-- The pixels of the `P`-component of `p`: the 8-connected foreground
region containing `p` (`w*h` expansion rounds always reach the
fixpoint). -/
def reachFrom (w h : Nat) (P : Pos → Bool) (p : Pos) : List Pos :=
  if P p then reachAux w h P (w * h) [p] else []

/-- The representative of `p`'s component: its raster-scan-first pixel. -/
def ccRep (w h : Nat) (P : Pos → Bool) (p : Pos) : Pos :=
  ((scanPos w h).filter (fun q => (reachFrom w h P p).contains q)).headD p

/-- The component representatives in raster-scan (discovery) order. -/
def ccReps (w h : Nat) (P : Pos → Bool) : List Pos :=
  (scanPos w h).filter (fun p => P p && (ccRep w h P p == p))

/-- Connected-component label of `p` over foreground `P`: `0` on
background, otherwise one plus the discovery index of its component's
representative. -/
def labelAt (w h : Nat) (P : Pos → Bool) (p : Pos) : Nat :=
  if P p then (ccReps w h P).indexOf (ccRep w h P p) + 1 else 0

/-- The canonical in-range foreground predicate of a mask. -/
def fgIn (m : Mask) : Pos → Bool :=
  fun p => decide (p.1 < m.w) && decide (p.2 < m.h) && m.fg p.1 p.2

/-- `label m`: connected-component labeling of a mask (spec §4.4:
8-connectivity, one positive integer per connected foreground region,
raster-scan discovery order). -/
def label (m : Mask) : LabelMap :=
  ⟨m.w, m.h, fun x y => labelAt m.w m.h (fgIn m) (x, y)⟩

/-- Reinterpret a label map as a mask (non-zero labels are foreground):
how an already-labeled map is fed back to the labeler. -/
def toMask (lm : LabelMap) : Mask :=
  ⟨lm.w, lm.h, fun x y => lm.lab x y != 0⟩

/-! ### Stage 3: Segmenter (script line 8, `Watershed`).

Modelled from the spec (§4.3): distance map over the mask (chessboard
distance, documented choice), markers = local maxima of the distance map
with 8-adjacent maxima merged into one marker, then flooding in
decreasing distance order with raster-scan tie-breaking; where two basins
meet, the pixel becomes a one-pixel watershed-boundary line assigned
background.  A pixel reached by no basin seeds a fresh one, so degenerate
inputs still yield a valid label map. -/

/-- Chebyshev (chessboard) distance between positions. -/
def cheb (p q : Pos) : Nat := max (Nat.dist p.1 q.1) (Nat.dist p.2 q.2)

/-- Chessboard distance of a pixel to the nearest out-of-bounds position
(everything outside the image counts as background). -/
def edgeDist (w h : Nat) (p : Pos) : Nat :=
  min (min (p.1 + 1) (w - p.1)) (min (p.2 + 1) (h - p.2))

/-- DistanceMap (spec §4.3 step 1): chessboard distance of a pixel to the
nearest background pixel, in-range or out-of-bounds. -/
def distMap (m : Mask) (p : Pos) : Nat :=
  ((scanPos m.w m.h).filter (fun q => !fgIn m q)).foldl
    (fun d q => min d (cheb p q)) (edgeDist m.w m.h p)

/-- Marker pixels (spec §4.3 step 2): foreground local maxima of the
distance map; 8-adjacent maxima merge into a single marker because the
marker labels are the connected-component labels of this set. -/
def markerAt (m : Mask) (p : Pos) : Bool :=
  fgIn m p && (neighborsOf m.w m.h p).all
    (fun q => !fgIn m q || decide (distMap m q ≤ distMap m p))

/-- Flood state: the pixels assigned so far together with their value
(`0` = watershed-boundary pixel, `k+1` = basin label; an absent pixel is
unprocessed) and the next fresh basin label. -/
structure FloodState where
  assigned : List (Pos × Nat)
  next : Nat
  deriving DecidableEq

/-- The value the flood has assigned to a pixel, if any. -/
def lookupA (st : FloodState) (p : Pos) : Option Nat :=
  (st.assigned.find? (fun e => e.1 == p)).map (fun e => e.2)

/-- Initial flood state: every marker pixel carries its marker's
connected-component label; everything else is unprocessed.  Fresh basin
labels continue after the marker labels. -/
def initFlood (m : Mask) : FloodState :=
  ⟨((scanPos m.w m.h).filter (markerAt m)).map
    (fun p => (p, labelAt m.w m.h (markerAt m) p)),
   (ccReps m.w m.h (markerAt m)).length + 1⟩

/-- Whether a pixel is foreground and still unprocessed. -/
def unproc (m : Mask) (st : FloodState) (p : Pos) : Bool :=
  fgIn m p && (lookupA st p).isNone

/-- Choice of the next pixel to flood (spec §4.3 step 3): among the
unprocessed foreground pixels 8-adjacent to an already-labeled basin, one
of maximal distance value, ties broken by raster-scan order; when no
unprocessed pixel touches a basin, the raster-scan-first unprocessed
pixel (it will seed a fresh basin); `none` when the flood is done. -/
def pick (m : Mask) (st : FloodState) : Option Pos :=
  let cands := (scanPos m.w m.h).filter (unproc m st)
  let withNb := cands.filter (fun p =>
    (neighborsOf m.w m.h p).any (fun q =>
      match lookupA st q with
      | some (_ + 1) => true
      | _ => false))
  match withNb with
  | [] => cands.head?
  | c :: cs =>
    some (cs.foldl (fun best p =>
      if distMap m best < distMap m p then p else best) c)

/-- The non-zero labels already assigned on the 8-neighbors of `p` (with
multiplicity). -/
def nbLabels (m : Mask) (st : FloodState) (p : Pos) : List Nat :=
  ((neighborsOf m.w m.h p).filterMap (lookupA st)).filter (fun v => v ≠ 0)

/-- One flood step (spec §4.3 step 3): the picked pixel joins the unique
adjacent basin, becomes a watershed-boundary pixel (label 0) where two or
more distinct basins meet, or seeds a fresh basin when it touches none. -/
def stepFlood (m : Mask) (st : FloodState) : FloodState :=
  match pick m st with
  | none => st
  | some p =>
    match nbLabels m st p with
    | [] => ⟨(p, st.next) :: st.assigned, st.next + 1⟩
    | L :: rest =>
      if rest.all (fun v => v == L) then ⟨(p, L) :: st.assigned, st.next⟩
      else ⟨(p, 0) :: st.assigned, st.next⟩

/-- Iterated flooding. -/
def floodIter (m : Mask) : Nat → FloodState → FloodState
  | 0, st => st
  | n + 1, st => floodIter m n (stepFlood m st)

/-- The final flood state; `w*h` steps always process every foreground
pixel. -/
def floodFinal (m : Mask) : FloodState :=
  floodIter m (m.w * m.h) (initFlood m)

/-- `segment m`: the watershed label map (spec §4.3): basins keep their
positive labels; background and watershed-boundary pixels carry 0. -/
def segment (m : Mask) : LabelMap :=
  ⟨m.w, m.h, fun x y => (lookupA (floodFinal m) (x, y)).getD 0⟩

/-- A pixel that the flood marked as watershed-boundary line: foreground
in the input, assigned 0 because distinct basins met there. -/
def isBoundary (m : Mask) (x y : Nat) : Bool :=
  lookupA (floodFinal m) (x, y) == some 0

/-- The watershedded mask the host's single image holds after script
line 8: the input mask with watershed-boundary pixels turned to
background. -/
def watershedMask (m : Mask) : Mask :=
  ⟨m.w, m.h, fun x y => (segment m).lab x y != 0⟩

/-! ### Pipeline assembly (spec §2/§6, script lines 3–11). -/

/-- The pipeline configuration of spec §6 (typed replacement for the
script's string-keyed options: `radius=2`, `black`, `size=50-Infinity`,
`exclude`). -/
structure Config where
  medianRadius : Int
  darkObjects : Bool
  minArea : Nat
  excludeEdge : Bool
  connectivity : Nat
  deriving DecidableEq

/-- A mask viewed as the 8-bit raster the host keeps after `Convert to
Mask`: foreground 255, background 0 (the script's `black` objects
convention stores objects as value 255). -/
def maskToImg (m : Mask) : Img :=
  ⟨m.w, m.h, fun x y => if fgIn m (x, y) = true then 255 else 0⟩

/-- Read the host's current binary raster back as a mask. -/
def imgToMask (i : Img) : Mask :=
  ⟨i.w, i.h, fun x y => i.pix x y != 0⟩

/-- The watershedded mask of a pipeline run on raster `g`. -/
def pipelineMask (g : Img) (c : Config) : Mask :=
  watershedMask (binarize (denoise g c.medianRadius.toNat) ⟨c.darkObjects⟩)

/-- The label map the particle analyzer works on: connected components of
the watershedded mask. -/
def pipelineLabelMap (g : Img) (c : Config) : LabelMap :=
  label (pipelineMask g c)

/-- `pipelineCore g c`: the five stages of spec §2 — denoise, binarize,
watershed, label, measure.  The measurement's intensity source is the
current image at measurement time: the script's `redirect=None` (line 9)
makes the particle analyzer read the post-binarization mask raster, not
the pre-binarization grayscale. -/
def pipelineCore (g : Img) (c : Config) : List PRec :=
  measure (pipelineLabelMap g c) (maskToImg (pipelineMask g c))
    ⟨c.minArea, c.excludeEdge⟩

/-- Modelled from the spec: the error taxonomy of §7 (the host script has
no explicit validation; `ConfigError` and `EmptyInputError` are the
spec's re-architected fatal conditions). -/
inductive PipelineError where
  | configError
  | emptyInputError
  deriving DecidableEq

/-- Whether the configuration is valid (spec §6: `medianRadius : int>0`,
`connectivity ∈ {4, 8}`). -/
def validConfig (c : Config) : Bool :=
  decide (0 < c.medianRadius) &&
    (c.connectivity == 4 || c.connectivity == 8)

/-- Modelled from the spec: `runBlobPipeline` (§6/§7) rejects an invalid
parameter with `ConfigError` before any processing starts, a zero-sized
raster with `EmptyInputError`, and otherwise runs the pipeline; every
other condition yields a valid (possibly empty) table. -/
def runBlobPipeline (g : Img) (c : Config) :
    Except PipelineError (List PRec) :=
  if validConfig c = false then .error .configError
  else if g.w = 0 || g.h = 0 then .error .emptyInputError
  else .ok (pipelineCore g c)

/-- Whether a pipeline run failed. -/
def isErr {α : Type} (e : Except PipelineError α) : Bool :=
  match e with
  | .error _ => true
  | .ok _ => false

/-! ### The script's in-place image state (lines 3–11).

The script drives the host through a single image object `imp`; every
`IJ.run(imp, ...)` overwrites that one raster in place. -/

/-- The host application's state: the single current image `imp`. -/
structure HostState where
  img : Img

/-- One host call: the stage's output overwrites the single image. -/
def ijRun (s : HostState) (stage : Img → Img) : HostState :=
  ⟨stage s.img⟩

/-- Script line 4: the median filter, radius 2, in place. -/
def scriptMedian (s : HostState) : HostState :=
  ijRun s (fun i => denoise i 2)

/-- Script lines 5–7: `Default` auto-threshold with dark-object polarity
(the `black` option) followed by `Convert to Mask`: `imp` is overwritten
with the binary mask raster, destroying the grayscale samples. -/
def scriptMask (s : HostState) : HostState :=
  ijRun s (fun i => maskToImg (binarize i ⟨true⟩))

/-- Script line 8: `Watershed` redraws the mask in place, carving
background boundary lines between touching blobs. -/
def scriptWatershed (s : HostState) : HostState :=
  ijRun s (fun i => maskToImg (watershedMask (imgToMask i)))

/-- The raster the measurement of lines 9–10 reads (`redirect=None`): the
host's single current image after line 8. -/
def scriptMeasureInput (g : Img) : Img :=
  (scriptWatershed (scriptMask (scriptMedian ⟨g⟩))).img

/-- The flood invariant: values are assigned only to in-range foreground
pixels, assigned basin labels stay below the fresh-label counter, and the
pixel set of every basin label is 8-connected. -/
def FloodInv (m : Mask) (st : FloodState) : Prop :=
  (∀ p v, lookupA st p = some v → fgIn m p = true) ∧
  1 ≤ st.next ∧
  (∀ p L, lookupA st p = some L → L < st.next) ∧
  (∀ L, 0 < L → ∀ p q, lookupA st p = some L → lookupA st q = some L →
    ReachIn (fun r => lookupA st r = some L) p q)

/-! ### Concrete fixtures used by counterexamples and witnesses. -/

/-- The end-to-end scenario raster of spec §8: a 4×4 image with a single
2×2 block of intensity 0 (columns 1–2, rows 1–2) on background 255. -/
def blob4 : Img :=
  ⟨4, 4, fun x y => if (x = 1 ∨ x = 2) ∧ (y = 1 ∨ y = 2) then 0 else 255⟩

/-- A perfectly flat 3×3 image of intensity 7. -/
def flat3 : Img := ⟨3, 3, fun _ _ => 7⟩

/-- The binary mask the pipeline derives from `blob4` at median radius 1:
the 2×2 block (columns 1–2, rows 1–2) is foreground. -/
def mask4 : Mask :=
  ⟨4, 4, fun x y =>
    decide (x < 4) && decide (y < 4) &&
      ((x == 1 || x == 2) && (y == 1 || y == 2))⟩

/-- A 10×5 label map whose single label 1 covers the whole grid: one
component of area exactly 50, touching the border. -/
def lmFull50 : LabelMap := ⟨10, 5, fun _ _ => 1⟩

/-- A flat 10×5 intensity raster for measuring `lmFull50`. -/
def imgFull50 : Img := ⟨10, 5, fun _ _ => 255⟩

/-- A 4×4 label map whose single label 1 is the lone pixel `(0, 0)`: a
border-touching component of area 1. -/
def lmCorner : LabelMap :=
  ⟨4, 4, fun x y => if x = 0 ∧ y = 0 then 1 else 0⟩

/-- A flat 4×4 intensity raster for measuring `lmCorner`. -/
def imgCorner : Img := ⟨4, 4, fun _ _ => 7⟩

/-- The spec §8 scenario configuration with median radius 1 (the smallest
the configuration allows): `minArea = 1`, no edge exclusion, isodata
threshold, dark objects, 8-connectivity. -/
def cfgR1 : Config := ⟨1, true, 1, false, 8⟩

/-- The spec §8 scenario configuration at the script's (and spec §4.1's
default) median radius 2. -/
def cfgR2 : Config := ⟨2, true, 1, false, 8⟩

/-- The label map of the 2×2 block: label 1 on the block, 0 elsewhere. -/
def lm4 : LabelMap :=
  ⟨4, 4, fun x y =>
    if (decide (x < 4) && decide (y < 4) &&
        ((x == 1 || x == 2) && (y == 1 || y == 2))) = true then 1 else 0⟩

/-- The all-background 4×4 mask. -/
def maskE : Mask := ⟨4, 4, fun _ _ => false⟩

/-- The all-zero 4×4 label map. -/
def lmE : LabelMap := ⟨4, 4, fun _ _ => 0⟩

/-- The single record the radius-1 pipeline run on `blob4` produces:
label 1, area 4, intensities read from the mask raster (value 255),
coordinate sums 6 and 6 (centroid `(3/2, 3/2)`). -/
def rec4 : PRec :=
  ⟨1, 4, 1020, 255, 255, 6, 6, false⟩

/-- An invalid configuration: zero median radius. -/
def cfgBad : Config := ⟨0, true, 1, false, 8⟩

/-! ## Theorems -/

theorem mem_scanPos {w h : Nat} {p : Pos} :
    p ∈ scanPos w h ↔ p.1 < w ∧ p.2 < h := by
  constructor
  · intro hp
    rcases List.mem_flatMap.mp hp with ⟨y, hy, hmem⟩
    rcases List.mem_map.mp hmem with ⟨x, hx, hxy⟩
    subst hxy
    exact ⟨List.mem_range.mp hx, List.mem_range.mp hy⟩
  · intro ⟨h1, h2⟩
    exact List.mem_flatMap.mpr ⟨p.2, List.mem_range.mpr h2,
      List.mem_map.mpr ⟨p.1, List.mem_range.mpr h1, rfl⟩⟩

theorem length_scanPos (w h : Nat) : (scanPos w h).length = w * h := by
  simp only [scanPos, List.length_flatMap, Function.comp_def, List.length_map,
    List.length_range, List.map_const', List.sum_replicate, smul_eq_mul,
    Nat.mul_comm]

theorem nodup_scanPos (w h : Nat) : (scanPos w h).Nodup := by
  refine List.nodup_flatMap.mpr ⟨fun y _ => ?_, ?_⟩
  · have hinj : Function.Injective (fun x => ((x, y) : Pos)) :=
      fun a b hab => (Prod.ext_iff.mp hab).1
    exact (List.nodup_range w).map hinj
  · refine (List.nodup_range h).imp ?_
    intro y₁ y₂ hne p hp₁ hp₂
    rcases List.mem_map.mp hp₁ with ⟨x₁, _, e₁⟩
    rcases List.mem_map.mp hp₂ with ⟨x₂, _, e₂⟩
    exact hne ((Prod.ext_iff.mp (e₁.trans e₂.symm)).2)

theorem adjB_symm (p q : Pos) : adjB p q = adjB q p := by
  simp only [adjB, Nat.dist_comm]
  by_cases hpq : p = q
  · subst hpq; rfl
  · simp [hpq, Ne.symm hpq]

theorem mem_neighborsOf {w h : Nat} {p q : Pos} :
    q ∈ neighborsOf w h p ↔ q.1 < w ∧ q.2 < h ∧ adjB p q = true := by
  simp only [neighborsOf, List.mem_filter, mem_scanPos, and_assoc]

theorem ReachIn.mem_left {S : Pos → Prop} {p q : Pos}
    (h : ReachIn S p q) : S p := by
  induction h with
  | refl hp => exact hp
  | tail _ _ _ _ _ ih => exact ih

theorem ReachIn.mem_right {S : Pos → Prop} {p q : Pos}
    (h : ReachIn S p q) : S q := by
  induction h with
  | refl hp => exact hp
  | tail _ _ _ h2 _ _ => exact h2

theorem ReachIn.mono {S T : Pos → Prop} (hST : ∀ r, S r → T r) {p q : Pos}
    (h : ReachIn S p q) : ReachIn T p q := by
  induction h with
  | refl ha => exact ReachIn.refl _ (hST _ ha)
  | tail _ _ _ h2 h3 ih => exact ReachIn.tail _ _ _ ih (hST _ h2) h3

theorem ReachIn.append {S : Pos → Prop} {p q r : Pos}
    (h₁ : ReachIn S p q) (h₂ : ReachIn S q r) : ReachIn S p r := by
  induction h₂ with
  | refl _ => exact h₁
  | tail _ _ _ h2 h3 ih => exact ReachIn.tail _ _ _ ih h2 h3

theorem ReachIn.single {S : Pos → Prop} {p q : Pos} (hp : S p) (hq : S q)
    (hadj : adjB p q = true) : ReachIn S p q :=
  ReachIn.tail p p q (ReachIn.refl p hp) hq hadj

theorem ReachIn.symm' {S : Pos → Prop} {p q : Pos}
    (h : ReachIn S p q) : ReachIn S q p := by
  induction h with
  | refl ha => exact ReachIn.refl _ ha
  | tail _ _ h1 h2 h3 ih =>
    exact ReachIn.append
      (ReachIn.single h2 h1.mem_right (by rwa [adjB_symm])) ih

theorem contains_eq_true_of_mem {S : List Pos} {q : Pos} (hq : q ∈ S) :
    S.contains q = true := by
  show S.elem q = true
  simpa [List.elem_eq_mem]

theorem contains_eq_false_of_not_mem {S : List Pos} {q : Pos} (hq : q ∉ S) :
    S.contains q = false := by
  show S.elem q = false
  simpa [List.elem_eq_mem]

theorem contains_iff_mem {S : List Pos} {q : Pos} :
    S.contains q = true ↔ q ∈ S := by
  show S.elem q = true ↔ q ∈ S
  simp [List.elem_eq_mem]

theorem subset_expandOnce {w h : Nat} {P : Pos → Bool} {S : List Pos} :
    S ⊆ expandOnce w h P S :=
  fun _ hq => List.mem_append_left _ hq

theorem mem_expandOnce {w h : Nat} {P : Pos → Bool} {S : List Pos} {q : Pos} :
    q ∈ expandOnce w h P S ↔
      q ∈ S ∨ (P q = true ∧ q ∉ S ∧ ∃ s ∈ S, q ∈ neighborsOf w h s) := by
  constructor
  · intro hq
    rcases List.mem_append.mp hq with hin | hnew
    · exact Or.inl hin
    · right
      have hq' := List.mem_filter.mp (List.mem_dedup.mp hnew)
      rcases List.mem_flatMap.mp hq'.1 with ⟨s, hs, hqn⟩
      have hcond := hq'.2
      simp only [Bool.and_eq_true, Bool.not_eq_true'] at hcond
      refine ⟨hcond.1, ?_, s, hs, hqn⟩
      intro hqS
      rw [contains_eq_true_of_mem hqS] at hcond
      exact Bool.noConfusion hcond.2
  · intro hq
    rcases hq with hin | ⟨hP, hnS, s, hs, hqn⟩
    · exact List.mem_append_left _ hin
    · refine List.mem_append_right _ ?_
      refine List.mem_dedup.mpr (List.mem_filter.mpr
        ⟨List.mem_flatMap.mpr ⟨s, hs, hqn⟩, ?_⟩)
      simp only [Bool.and_eq_true, Bool.not_eq_true']
      exact ⟨hP, contains_eq_false_of_not_mem hnS⟩

theorem nodup_expandOnce {w h : Nat} {P : Pos → Bool} {S : List Pos}
    (hS : S.Nodup) : (expandOnce w h P S).Nodup := by
  rw [expandOnce, List.nodup_append]
  refine ⟨hS, List.nodup_dedup _, ?_⟩
  intro a haS hadedup
  have h2 := (List.mem_filter.mp (List.mem_dedup.mp hadedup)).2
  simp only [Bool.and_eq_true, Bool.not_eq_true'] at h2
  rw [contains_eq_true_of_mem haS] at h2
  exact Bool.noConfusion h2.2

theorem good_expandOnce {w h : Nat} {P : Pos → Bool} {p₀ : Pos}
    {S : List Pos}
    (hS : ∀ q ∈ S, P q = true ∧ ReachIn (fun r => P r = true) p₀ q) :
    ∀ q ∈ expandOnce w h P S,
      P q = true ∧ ReachIn (fun r => P r = true) p₀ q := by
  intro q hq
  rcases mem_expandOnce.mp hq with hin | ⟨hP, _, s, hs, hqn⟩
  · exact hS q hin
  · exact ⟨hP, ReachIn.tail _ _ _ (hS s hs).2 hP (mem_neighborsOf.mp hqn).2.2⟩

theorem subset_reachAux {w h : Nat} {P : Pos → Bool} :
    ∀ (fuel : Nat) (S : List Pos), S ⊆ reachAux w h P fuel S := by
  intro fuel
  induction fuel with
  | zero => exact fun S a ha => ha
  | succ n ih =>
    intro S a ha
    simp only [reachAux]
    split
    · exact ha
    · exact ih _ (subset_expandOnce ha)

theorem reachAux_good {w h : Nat} {P : Pos → Bool} {p₀ : Pos} :
    ∀ (fuel : Nat) (S : List Pos), S.Nodup →
      (∀ q ∈ S, P q = true ∧ ReachIn (fun r => P r = true) p₀ q) →
      (reachAux w h P fuel S).Nodup ∧
        ∀ q ∈ reachAux w h P fuel S,
          P q = true ∧ ReachIn (fun r => P r = true) p₀ q := by
  intro fuel
  induction fuel with
  | zero => exact fun S h1 h2 => ⟨h1, h2⟩
  | succ n ih =>
    intro S h1 h2
    simp only [reachAux]
    split
    · exact ⟨h1, h2⟩
    · exact ih _ (nodup_expandOnce h1) (good_expandOnce h2)

theorem reachAux_stable {w h : Nat} {P : Pos → Bool} :
    ∀ (fuel : Nat) (S : List Pos),
      (expandOnce w h P (reachAux w h P fuel S)).length =
          (reachAux w h P fuel S).length ∨
        S.length + fuel ≤ (reachAux w h P fuel S).length := by
  intro fuel
  induction fuel with
  | zero => exact fun S => Or.inr (Nat.le_refl _)
  | succ n ih =>
    intro S
    simp only [reachAux]
    split
    next hlen => exact Or.inl hlen
    next hlen =>
      rcases ih (expandOnce w h P S) with hs | hbig
      · exact Or.inl hs
      · right
        have hge : S.length ≤ (expandOnce w h P S).length := by
          rw [expandOnce, List.length_append]
          omega
        omega

theorem length_le_grid {w h : Nat} {S : List Pos} (hnd : S.Nodup)
    (hin : ∀ q ∈ S, q.1 < w ∧ q.2 < h) : S.length ≤ w * h := by
  have hsub : S ⊆ scanPos w h := fun q hq => mem_scanPos.mpr (hin q hq)
  have hle := (List.subperm_of_subset hnd hsub).length_le
  rwa [length_scanPos] at hle

theorem closed_of_stable {w h : Nat} {P : Pos → Bool} {S : List Pos}
    (hlen : (expandOnce w h P S).length = S.length) :
    ∀ q ∈ S, ∀ r : Pos, P r = true → r.1 < w → r.2 < h →
      adjB q r = true → r ∈ S := by
  intro q hq r hP h1 h2 hadj
  by_contra hrS
  have hlen' := hlen
  rw [expandOnce, List.length_append] at hlen'
  have hnil : ((S.flatMap (neighborsOf w h)).filter
      (fun x => P x && !(S.contains x))).dedup = [] :=
    List.eq_nil_of_length_eq_zero (by omega)
  have hr_mem : r ∈ ((S.flatMap (neighborsOf w h)).filter
      (fun x => P x && !(S.contains x))).dedup := by
    refine List.mem_dedup.mpr (List.mem_filter.mpr
      ⟨List.mem_flatMap.mpr ⟨q, hq, mem_neighborsOf.mpr ⟨h1, h2, hadj⟩⟩, ?_⟩)
    simp only [Bool.and_eq_true, Bool.not_eq_true']
    exact ⟨hP, contains_eq_false_of_not_mem hrS⟩
  rw [hnil] at hr_mem
  exact List.not_mem_nil _ hr_mem

theorem reachFrom_good {w h : Nat} {P : Pos → Bool} {p : Pos}
    (hp : P p = true) :
    (reachFrom w h P p).Nodup ∧
      ∀ q ∈ reachFrom w h P p,
        P q = true ∧ ReachIn (fun r => P r = true) p q := by
  rw [reachFrom, if_pos hp]
  refine reachAux_good _ _ (List.nodup_singleton p) ?_
  intro q hq
  rcases List.mem_singleton.mp hq with rfl
  exact ⟨hp, ReachIn.refl _ hp⟩

theorem self_mem_reachFrom {w h : Nat} {P : Pos → Bool} {p : Pos}
    (hp : P p = true) : p ∈ reachFrom w h P p := by
  rw [reachFrom, if_pos hp]
  exact subset_reachAux _ _ (List.mem_singleton_self p)

theorem reachFrom_closed {w h : Nat} {P : Pos → Bool} {p : Pos}
    (Hin : ∀ q, P q = true → q.1 < w ∧ q.2 < h) (hp : P p = true) :
    ∀ q ∈ reachFrom w h P p, ∀ r : Pos, P r = true → adjB q r = true →
      r ∈ reachFrom w h P p := by
  intro q hq r hP hadj
  have hsingle : ∀ z ∈ ([p] : List Pos),
      P z = true ∧ ReachIn (fun r => P r = true) p z := by
    intro z hz
    rcases List.mem_singleton.mp hz with rfl
    exact ⟨hp, ReachIn.refl _ hp⟩
  have hstable :
      (expandOnce w h P (reachAux w h P (w * h) [p])).length =
        (reachAux w h P (w * h) [p]).length := by
    rcases @reachAux_stable w h P (w * h) [p] with hs | hbig
    · exact hs
    · exfalso
      have hgood := @reachAux_good w h P p (w * h) [p]
        (List.nodup_singleton p) hsingle
      have hle := length_le_grid hgood.1
        (fun z hz => Hin z (hgood.2 z hz).1)
      simp only [List.length_singleton] at hbig
      omega
  have hq' : q ∈ reachAux w h P (w * h) [p] := by
    rwa [reachFrom, if_pos hp] at hq
  have hr := closed_of_stable hstable q hq' r hP (Hin r hP).1 (Hin r hP).2 hadj
  rw [reachFrom, if_pos hp]
  exact hr

theorem reach_complete {w h : Nat} {P : Pos → Bool} {p : Pos}
    (Hin : ∀ q, P q = true → q.1 < w ∧ q.2 < h) (hp : P p = true) {z : Pos}
    (hz : ReachIn (fun r => P r = true) p z) : z ∈ reachFrom w h P p := by
  induction hz with
  | refl _ => exact self_mem_reachFrom hp
  | tail _ _ _ h2 h3 ih => exact reachFrom_closed Hin hp _ ih _ h2 h3

theorem reachFrom_class_iff {w h : Nat} {P : Pos → Bool} {p q : Pos}
    (Hin : ∀ r, P r = true → r.1 < w ∧ r.2 < h) (hp : P p = true)
    (hq : q ∈ reachFrom w h P p) :
    ∀ z, z ∈ reachFrom w h P q ↔ z ∈ reachFrom w h P p := by
  have hgood := @reachFrom_good w h P p hp
  have hPq : P q = true := (hgood.2 q hq).1
  have hpq : ReachIn (fun r => P r = true) p q := (hgood.2 q hq).2
  intro z
  constructor
  · intro hzq
    have hz := (@reachFrom_good w h P q hPq).2 z hzq
    exact reach_complete Hin hp (hpq.append hz.2)
  · intro hzp
    have hz := (@reachFrom_good w h P p hp).2 z hzp
    exact reach_complete Hin hPq (hpq.symm'.append hz.2)

theorem headD_mem {l : List Pos} (h : l ≠ []) (a : Pos) : l.headD a ∈ l := by
  cases l with
  | nil => exact absurd rfl h
  | cons x xs => exact List.mem_cons_self _ _

theorem headD_of_ne_nil {l : List Pos} (h : l ≠ []) (a b : Pos) :
    l.headD a = l.headD b := by
  cases l with
  | nil => exact absurd rfl h
  | cons x xs => rfl

theorem ccRep_spec {w h : Nat} {P : Pos → Bool} {p : Pos}
    (Hin : ∀ r, P r = true → r.1 < w ∧ r.2 < h) (hp : P p = true) :
    ccRep w h P p ∈ reachFrom w h P p ∧ P (ccRep w h P p) = true := by
  have hne : (scanPos w h).filter
      (fun q => (reachFrom w h P p).contains q) ≠ [] := by
    refine List.ne_nil_of_mem (List.mem_filter.mpr
      ⟨mem_scanPos.mpr (Hin p hp),
       contains_eq_true_of_mem (self_mem_reachFrom hp)⟩)
  have hmem : ccRep w h P p ∈ (scanPos w h).filter
      (fun q => (reachFrom w h P p).contains q) := headD_mem hne p
  have hreach := contains_iff_mem.mp (List.mem_filter.mp hmem).2
  exact ⟨hreach, ((@reachFrom_good w h P p hp).2 _ hreach).1⟩

theorem ccRep_eq_of_mem {w h : Nat} {P : Pos → Bool} {p q : Pos}
    (Hin : ∀ r, P r = true → r.1 < w ∧ r.2 < h) (hp : P p = true)
    (hq : q ∈ reachFrom w h P p) : ccRep w h P q = ccRep w h P p := by
  have hPq : P q = true := ((@reachFrom_good w h P p hp).2 q hq).1
  have hfe : (scanPos w h).filter
      (fun z => (reachFrom w h P q).contains z) =
      (scanPos w h).filter (fun z => (reachFrom w h P p).contains z) := by
    apply List.filter_congr
    intro z _
    rw [Bool.eq_iff_iff, contains_iff_mem, contains_iff_mem]
    exact reachFrom_class_iff Hin hp hq z
  have hne : (scanPos w h).filter
      (fun z => (reachFrom w h P p).contains z) ≠ [] := by
    refine List.ne_nil_of_mem (List.mem_filter.mpr
      ⟨mem_scanPos.mpr (Hin p hp),
       contains_eq_true_of_mem (self_mem_reachFrom hp)⟩)
  rw [ccRep, ccRep, hfe]
  exact headD_of_ne_nil hne q p

theorem ccRep_mem_ccReps {w h : Nat} {P : Pos → Bool} {p : Pos}
    (Hin : ∀ r, P r = true → r.1 < w ∧ r.2 < h) (hp : P p = true) :
    ccRep w h P p ∈ ccReps w h P := by
  have hspec := ccRep_spec Hin hp
  refine List.mem_filter.mpr ⟨mem_scanPos.mpr (Hin _ hspec.2), ?_⟩
  have hidem : ccRep w h P (ccRep w h P p) = ccRep w h P p :=
    ccRep_eq_of_mem Hin hp hspec.1
  simp [hspec.2, hidem]

theorem indexOf_inj_beq {α : Type} [BEq α] [LawfulBEq α] :
    ∀ {l : List α} {x y : α}, x ∈ l → y ∈ l →
      l.indexOf x = l.indexOf y → x = y := by
  intro l
  induction l with
  | nil => exact fun hx _ _ => absurd hx (List.not_mem_nil _)
  | cons a t ih =>
    intro x y hx hy heq
    rw [List.indexOf, List.indexOf, List.findIdx_cons, List.findIdx_cons] at heq
    cases hax : a == x with
    | true =>
      cases hay : a == y with
      | true => exact (eq_of_beq hax).symm.trans (eq_of_beq hay)
      | false => rw [hax, hay] at heq; simp at heq
    | false =>
      cases hay : a == y with
      | true => rw [hax, hay] at heq; simp at heq
      | false =>
        rw [hax, hay] at heq
        simp only [cond_false] at heq
        have hx' : x ∈ t := by
          rcases List.mem_cons.mp hx with rfl | hx'
          · simp at hax
          · exact hx'
        have hy' : y ∈ t := by
          rcases List.mem_cons.mp hy with rfl | hy'
          · simp at hay
          · exact hy'
        exact ih hx' hy' (Nat.add_right_cancel heq)

theorem rep_eq_of_labelAt_eq {w h : Nat} {P : Pos → Bool} {p q : Pos}
    (Hin : ∀ r, P r = true → r.1 < w ∧ r.2 < h) (hp : P p = true)
    (hq : P q = true) (heq : labelAt w h P p = labelAt w h P q) :
    ccRep w h P p = ccRep w h P q := by
  rw [labelAt, if_pos hp, labelAt, if_pos hq] at heq
  exact indexOf_inj_beq (ccRep_mem_ccReps Hin hp)
    (ccRep_mem_ccReps Hin hq) (Nat.add_right_cancel heq)

theorem ReachIn_restrict {w h : Nat} {P : Pos → Bool} {p z : Pos}
    (Hin : ∀ r, P r = true → r.1 < w ∧ r.2 < h) (hp : P p = true)
    (hz : ReachIn (fun r => P r = true) p z) :
    ReachIn (fun r => P r = true ∧ ccRep w h P r = ccRep w h P p) p z := by
  induction hz with
  | refl ha => exact ReachIn.refl _ ⟨ha, rfl⟩
  | tail _ _ h1 h2 h3 ih =>
    refine ReachIn.tail _ _ _ ih ⟨h2, ?_⟩ h3
    exact ccRep_eq_of_mem Hin hp
      (reach_complete Hin hp (ReachIn.tail _ _ _ h1 h2 h3))

theorem class_connected {w h : Nat} {P : Pos → Bool} {p q : Pos}
    (Hin : ∀ r, P r = true → r.1 < w ∧ r.2 < h) (hp : P p = true)
    (hq : P q = true) (hrep : ccRep w h P q = ccRep w h P p) :
    ReachIn (fun r => P r = true ∧ ccRep w h P r = ccRep w h P p) p q := by
  have hrp := ccRep_spec Hin hp
  have hrq := ccRep_spec Hin hq
  have h1 : ReachIn (fun r => P r = true) p (ccRep w h P p) :=
    ((@reachFrom_good w h P p hp).2 _ hrp.1).2
  have h2 : ReachIn (fun r => P r = true) q (ccRep w h P q) :=
    ((@reachFrom_good w h P q hq).2 _ hrq.1).2
  rw [hrep] at h2
  have hq_in : q ∈ reachFrom w h P p :=
    reach_complete Hin hp (h1.append h2.symm')
  exact ReachIn_restrict Hin hp ((@reachFrom_good w h P p hp).2 q hq_in).2

theorem fgIn_lt {m : Mask} {p : Pos} (hp : fgIn m p = true) :
    p.1 < m.w ∧ p.2 < m.h := by
  simp only [fgIn, Bool.and_eq_true, decide_eq_true_eq] at hp
  exact ⟨hp.1.1, hp.1.2⟩

theorem markerAt_fgIn {m : Mask} {p : Pos} (hp : markerAt m p = true) :
    fgIn m p = true :=
  ((Bool.and_eq_true ..).mp hp).1

theorem markerAt_lt {m : Mask} {p : Pos} (hp : markerAt m p = true) :
    p.1 < m.w ∧ p.2 < m.h :=
  fgIn_lt (markerAt_fgIn hp)

theorem indexOf_lt_length_beq {α : Type} [BEq α] [LawfulBEq α] :
    ∀ {l : List α} {a : α}, a ∈ l → l.indexOf a < l.length := by
  intro l
  induction l with
  | nil => exact fun h => absurd h (List.not_mem_nil _)
  | cons b t ih =>
    intro a ha
    rw [List.indexOf, List.findIdx_cons]
    cases hba : b == a with
    | true => simp
    | false =>
      have ha' : a ∈ t := by
        rcases List.mem_cons.mp ha with rfl | h'
        · simp at hba
        · exact h'
      simp only [cond_false, List.length_cons]
      exact Nat.succ_lt_succ (ih ha')

theorem lookupA_cons {st' st : FloodState} {p : Pos} {v : Nat}
    (hass : st'.assigned = (p, v) :: st.assigned) (q : Pos) :
    lookupA st' q = if q = p then some v else lookupA st q := by
  by_cases hqp : q = p
  · subst hqp
    rw [lookupA, hass, List.find?_cons_of_pos _ (by simp), if_pos rfl]
    rfl
  · rw [lookupA, hass, List.find?_cons_of_neg _ ?hne, if_neg hqp]
    · rfl
    case hne => simp only [beq_iff_eq]; exact fun hh => hqp hh.symm

theorem lookup_tabulate (l : List Pos) (f : Pos → Bool) (g : Pos → Nat)
    (q : Pos) :
    ((l.filter f).map (fun p => (p, g p))).find? (fun e => e.1 == q) =
      if q ∈ l ∧ f q = true then some (q, g q) else none := by
  induction l with
  | nil => simp
  | cons a t ih =>
    by_cases hfa : f a = true
    · rw [List.filter_cons_of_pos hfa, List.map_cons]
      by_cases haq : a = q
      · subst haq
        rw [List.find?_cons_of_pos _ (by simp),
          if_pos ⟨List.mem_cons_self a t, hfa⟩]
      · rw [List.find?_cons_of_neg _ (by simp [haq]), ih]
        have hiff : (q ∈ t ∧ f q = true) ↔ (q ∈ a :: t ∧ f q = true) := by
          constructor
          · exact fun hc => ⟨List.mem_cons_of_mem a hc.1, hc.2⟩
          · rintro ⟨h1, h2⟩
            rcases List.mem_cons.mp h1 with rfl | h1'
            · exact absurd rfl haq
            · exact ⟨h1', h2⟩
        rw [if_congr hiff rfl rfl]
    · rw [List.filter_cons_of_neg (by simpa using hfa), ih]
      have hiff : (q ∈ t ∧ f q = true) ↔ (q ∈ a :: t ∧ f q = true) := by
        constructor
        · exact fun hc => ⟨List.mem_cons_of_mem a hc.1, hc.2⟩
        · rintro ⟨h1, h2⟩
          rcases List.mem_cons.mp h1 with rfl | h1'
          · exact absurd h2 hfa
          · exact ⟨h1', h2⟩
      rw [if_congr hiff rfl rfl]

theorem lookupA_init {m : Mask} {p : Pos} :
    lookupA (initFlood m) p =
      if markerAt m p = true then
        some (labelAt m.w m.h (markerAt m) p)
      else none := by
  show (((((scanPos m.w m.h).filter (markerAt m)).map
    (fun p => (p, labelAt m.w m.h (markerAt m) p))).find?
      (fun e => e.1 == p)).map (fun e => e.2)) = _
  rw [lookup_tabulate]
  by_cases hm : markerAt m p = true
  · rw [if_pos ⟨mem_scanPos.mpr (markerAt_lt hm), hm⟩, if_pos hm]
    rfl
  · rw [if_neg (fun hand => hm hand.2), if_neg hm]
    rfl

theorem nbLabels_mem {m : Mask} {st : FloodState} {p : Pos} {v : Nat}
    (h : v ∈ nbLabels m st p) :
    v ≠ 0 ∧ ∃ q ∈ neighborsOf m.w m.h p, lookupA st q = some v := by
  have h' := List.mem_filter.mp h
  rcases List.mem_filterMap.mp h'.1 with ⟨q, hq, hlq⟩
  exact ⟨by simpa using h'.2, q, hq, hlq⟩

theorem stepFlood_assigned {m : Mask} {st : FloodState} {p : Pos}
    (h : pick m st = some p) :
    ∃ v, (stepFlood m st).assigned = (p, v) :: st.assigned := by
  cases hnl : nbLabels m st p with
  | nil =>
    refine ⟨st.next, ?_⟩
    simp only [stepFlood, h, hnl]
  | cons L rest =>
    by_cases hall : rest.all (fun v => v == L) = true
    · refine ⟨L, ?_⟩
      simp only [stepFlood, h, hnl]
      rw [if_pos hall]
    · refine ⟨0, ?_⟩
      simp only [stepFlood, h, hnl]
      rw [if_neg hall]

theorem foldl_best_mem {m : Mask} :
    ∀ (cs : List Pos) (c : Pos),
      cs.foldl (fun best p => if distMap m best < distMap m p then p
        else best) c ∈ c :: cs := by
  intro cs
  induction cs with
  | nil => exact fun c => List.mem_singleton_self c
  | cons a t ih =>
    intro c
    simp only [List.foldl_cons]
    by_cases hda : distMap m c < distMap m a
    · rw [if_pos hda]
      exact List.mem_cons_of_mem c (ih a)
    · rw [if_neg hda]
      rcases List.mem_cons.mp (ih c) with hh | ht
      · exact List.mem_cons.mpr (Or.inl hh)
      · exact List.mem_cons_of_mem c (List.mem_cons_of_mem a ht)

theorem pick_eq_some {m : Mask} {st : FloodState} {p : Pos}
    (h : pick m st = some p) :
    p ∈ scanPos m.w m.h ∧ unproc m st p = true := by
  simp only [pick] at h
  cases hw : ((scanPos m.w m.h).filter (unproc m st)).filter
      (fun p => (neighborsOf m.w m.h p).any (fun q =>
        match lookupA st q with
        | some (_ + 1) => true
        | _ => false)) with
  | nil =>
    rw [hw] at h
    have hp := List.mem_of_mem_head? (Option.mem_def.mpr h)
    have := List.mem_filter.mp hp
    exact ⟨this.1, this.2⟩
  | cons c cs =>
    rw [hw] at h
    have hp : p ∈ c :: cs := Option.some.inj h ▸ foldl_best_mem cs c
    rw [← hw] at hp
    have hp' := List.mem_of_mem_filter hp
    have := List.mem_filter.mp hp'
    exact ⟨this.1, this.2⟩

theorem pick_eq_none {m : Mask} {st : FloodState}
    (h : pick m st = none) :
    (scanPos m.w m.h).filter (unproc m st) = [] := by
  simp only [pick] at h
  cases hw : ((scanPos m.w m.h).filter (unproc m st)).filter
      (fun p => (neighborsOf m.w m.h p).any (fun q =>
        match lookupA st q with
        | some (_ + 1) => true
        | _ => false)) with
  | cons c cs =>
    rw [hw] at h
    exact Option.noConfusion h
  | nil =>
    rw [hw] at h
    exact List.head?_eq_none_iff.mp h

theorem countP_flip {l : List Pos} {Pb Qb : Pos → Bool} {a : Pos}
    (ha : a ∈ l) (hP : Pb a = true) (hQ : Qb a = false)
    (hagree : ∀ b, b ≠ a → Qb b = Pb b) :
    l.countP Qb + 1 ≤ l.countP Pb := by
  have hmono : ∀ (t : List Pos), t.countP Qb ≤ t.countP Pb := by
    intro t
    apply List.countP_mono_left
    intro x _ hQx
    by_cases hxa : x = a
    · rw [hxa, hQ] at hQx
      exact Bool.noConfusion hQx
    · rw [← hagree x hxa]
      exact hQx
  induction l with
  | nil => exact absurd ha (List.not_mem_nil a)
  | cons c t ih =>
    rw [List.countP_cons, List.countP_cons]
    by_cases hca : c = a
    · rw [hca, hP, hQ]
      have hm := hmono t
      simp only [Bool.false_eq_true, if_false, if_true]
      omega
    · rcases List.mem_cons.mp ha with haeq | hat
      · exact absurd haeq.symm hca
      · have hle := ih hat
        rw [hagree c hca]
        by_cases hc : Pb c = true
        · simp only [hc, if_true]
          omega
        · simp only [Bool.not_eq_true] at hc
          simp only [hc, Bool.false_eq_true, if_false]
          omega

theorem step_count {m : Mask} {st : FloodState} {p : Pos}
    (h : pick m st = some p) :
    (scanPos m.w m.h).countP (unproc m (stepFlood m st)) + 1 ≤
      (scanPos m.w m.h).countP (unproc m st) := by
  rcases stepFlood_assigned h with ⟨v, hass⟩
  have hup := pick_eq_some h
  refine countP_flip hup.1 hup.2 ?_ ?_
  · simp [unproc, lookupA_cons hass p]
  · intro b hb
    simp [unproc, lookupA_cons hass b, hb]

theorem floodIter_done {m : Mask} :
    ∀ (n : Nat) (st : FloodState),
      (scanPos m.w m.h).countP (unproc m st) ≤ n →
      (scanPos m.w m.h).countP (unproc m (floodIter m n st)) = 0 := by
  intro n
  induction n with
  | zero =>
    intro st hc
    simpa [floodIter] using Nat.le_zero.mp hc
  | succ k ih =>
    intro st hc
    rw [floodIter]
    cases hpick : pick m st with
    | none =>
      have hnil := pick_eq_none hpick
      have hzero : (scanPos m.w m.h).countP (unproc m st) = 0 := by
        rw [List.countP_eq_length_filter, hnil]
        rfl
      have hstep : stepFlood m st = st := by rw [stepFlood, hpick]
      rw [hstep]
      exact ih st (by omega)
    | some p =>
      have hdec := step_count hpick
      exact ih _ (by omega)

theorem floodFinal_processed {m : Mask} {p : Pos} (hp : fgIn m p = true) :
    ∃ v, lookupA (floodFinal m) p = some v := by
  have hcount : (scanPos m.w m.h).countP (unproc m (initFlood m)) ≤
      m.w * m.h := by
    calc (scanPos m.w m.h).countP (unproc m (initFlood m)) ≤
        (scanPos m.w m.h).length := List.countP_le_length _
      _ = m.w * m.h := length_scanPos m.w m.h
  have hdone := floodIter_done (m.w * m.h) (initFlood m) hcount
  have hmem : p ∈ scanPos m.w m.h := mem_scanPos.mpr (fgIn_lt hp)
  have hnp := List.countP_eq_zero.mp hdone p hmem
  cases hopt : lookupA (floodFinal m) p with
  | some v => exact ⟨v, rfl⟩
  | none =>
    exfalso
    refine hnp ?_
    show unproc m (floodIter m (m.w * m.h) (initFlood m)) p = true
    rw [unproc, hp]
    have : lookupA (floodIter m (m.w * m.h) (initFlood m)) p = none := hopt
    rw [this]
    rfl

theorem stepFlood_inv {m : Mask} {st : FloodState} (hinv : FloodInv m st) :
    FloodInv m (stepFlood m st) := by
  obtain ⟨inv1, inv2, inv3, inv4⟩ := hinv
  cases hpick : pick m st with
  | none =>
    have hstep : stepFlood m st = st := by rw [stepFlood, hpick]
    rw [hstep]
    exact ⟨inv1, inv2, inv3, inv4⟩
  | some p =>
    have hup := pick_eq_some hpick
    have hfg : fgIn m p = true := ((Bool.and_eq_true ..).mp hup.2).1
    have hnone : lookupA st p = none :=
      Option.isNone_iff_eq_none.mp ((Bool.and_eq_true ..).mp hup.2).2
    have hold_ne : ∀ {r : Pos} {L : Nat}, lookupA st r = some L → r ≠ p := by
      intro r L hr he
      rw [he, hnone] at hr
      exact Option.noConfusion hr
    have key : ∀ (v n' : Nat), st.next ≤ n' → v < n' →
        (∀ L, 0 < L → ∀ a b,
          (if a = p then some v else lookupA st a) = some L →
          (if b = p then some v else lookupA st b) = some L →
          ReachIn
            (fun r => (if r = p then some v else lookupA st r) = some L)
            a b) →
        FloodInv m ⟨(p, v) :: st.assigned, n'⟩ := by
      intro v n' hn hv hconn
      have hchar := @lookupA_cons ⟨(p, v) :: st.assigned, n'⟩ st p v rfl
      refine ⟨?_, by show 1 ≤ n'; omega, ?_, ?_⟩
      · intro q u hl
        rw [hchar q] at hl
        by_cases hqp : q = p
        · rw [hqp]
          exact hfg
        · rw [if_neg hqp] at hl
          exact inv1 q u hl
      · intro q L hl
        rw [hchar q] at hl
        show L < n'
        by_cases hqp : q = p
        · rw [if_pos hqp] at hl
          have := Option.some.inj hl
          omega
        · rw [if_neg hqp] at hl
          have := inv3 q L hl
          omega
      · intro L hL a b hla hlb
        rw [hchar a] at hla
        rw [hchar b] at hlb
        have hconn' := hconn L hL a b hla hlb
        refine hconn'.mono ?_
        intro r hr
        rw [hchar r]
        exact hr
    have hold_mono : ∀ (v L : Nat), 0 < L → ∀ x y,
        lookupA st x = some L → lookupA st y = some L →
        ReachIn (fun r => (if r = p then some v else lookupA st r) = some L)
          x y := by
      intro v L hL x y hx hy
      refine (inv4 L hL x y hx hy).mono ?_
      intro r hr
      rw [if_neg (hold_ne hr)]
      exact hr
    cases hnl : nbLabels m st p with
    | nil =>
      have hstep : stepFlood m st =
          ⟨(p, st.next) :: st.assigned, st.next + 1⟩ := by
        simp only [stepFlood, hpick, hnl]
      rw [hstep]
      refine key st.next (st.next + 1) (by omega) (by omega) ?_
      intro L hL a b hla hlb
      by_cases hap : a = p
      · rw [if_pos hap] at hla
        have hLv : L = st.next := (Option.some.inj hla).symm
        by_cases hbp : b = p
        · rw [hap, hbp]
          exact ReachIn.refl p (by rw [if_pos rfl, hLv])
        · rw [if_neg hbp] at hlb
          have := inv3 b L hlb
          omega
      · rw [if_neg hap] at hla
        by_cases hbp : b = p
        · rw [if_pos hbp] at hlb
          have hLv : L = st.next := (Option.some.inj hlb).symm
          have := inv3 a L hla
          omega
        · rw [if_neg hbp] at hlb
          exact hold_mono st.next L hL a b hla hlb
    | cons L₀ rest =>
      have hmemL₀ : L₀ ∈ nbLabels m st p := by
        rw [hnl]
        exact List.mem_cons_self _ _
      rcases nbLabels_mem hmemL₀ with ⟨hL₀ne, q0, hq0n, hq0l⟩
      have hadj : adjB p q0 = true := (mem_neighborsOf.mp hq0n).2.2
      have hq0p : q0 ≠ p := hold_ne hq0l
      have hL₀lt : L₀ < st.next := inv3 q0 L₀ hq0l
      by_cases hall : rest.all (fun u => u == L₀) = true
      · have hstep : stepFlood m st =
            ⟨(p, L₀) :: st.assigned, st.next⟩ := by
          simp only [stepFlood, hpick, hnl]
          rw [if_pos hall]
        rw [hstep]
        refine key L₀ st.next (by omega) hL₀lt ?_
        intro L hL a b hla hlb
        by_cases hLL : L = L₀
        · subst hLL
          have hpredp : (if p = p then some L else lookupA st p) = some L := by
            rw [if_pos rfl]
          have hpredq0 :
              (if q0 = p then some L else lookupA st q0) = some L := by
            rw [if_neg hq0p]
            exact hq0l
          by_cases hap : a = p
          · by_cases hbp : b = p
            · rw [hap, hbp]
              exact ReachIn.refl p hpredp
            · rw [if_neg hbp] at hlb
              rw [hap]
              exact ReachIn.append
                (ReachIn.single hpredp hpredq0 hadj)
                (hold_mono L L hL q0 b hq0l hlb)
          · rw [if_neg hap] at hla
            by_cases hbp : b = p
            · rw [hbp]
              exact (ReachIn.append
                (ReachIn.single hpredp hpredq0 hadj)
                (hold_mono L L hL q0 a hq0l hla)).symm'
            · rw [if_neg hbp] at hlb
              exact hold_mono L L hL a b hla hlb
        · have hap : a ≠ p := by
            intro he
            rw [if_pos he] at hla
            exact hLL (Option.some.inj hla).symm
          have hbp : b ≠ p := by
            intro he
            rw [if_pos he] at hlb
            exact hLL (Option.some.inj hlb).symm
          rw [if_neg hap] at hla
          rw [if_neg hbp] at hlb
          exact hold_mono L₀ L hL a b hla hlb
      · have hstep : stepFlood m st =
            ⟨(p, 0) :: st.assigned, st.next⟩ := by
          simp only [stepFlood, hpick, hnl]
          rw [if_neg hall]
        rw [hstep]
        refine key 0 st.next (by omega) (by omega) ?_
        intro L hL a b hla hlb
        have hap : a ≠ p := by
          intro he
          rw [if_pos he] at hla
          have := Option.some.inj hla
          omega
        have hbp : b ≠ p := by
          intro he
          rw [if_pos he] at hlb
          have := Option.some.inj hlb
          omega
        rw [if_neg hap] at hla
        rw [if_neg hbp] at hlb
        exact hold_mono 0 L hL a b hla hlb

theorem floodIter_inv {m : Mask} :
    ∀ (n : Nat) (st : FloodState), FloodInv m st →
      FloodInv m (floodIter m n st) := by
  intro n
  induction n with
  | zero => exact fun st hs => hs
  | succ k ih =>
    intro st hs
    rw [floodIter]
    exact ih _ (stepFlood_inv hs)

theorem initFlood_inv (m : Mask) : FloodInv m (initFlood m) := by
  have Hin : ∀ r, markerAt m r = true → r.1 < m.w ∧ r.2 < m.h :=
    fun r hr => markerAt_lt hr
  refine ⟨?_, ?_, ?_, ?_⟩
  · intro p v hl
    rw [lookupA_init] at hl
    by_cases hm : markerAt m p = true
    · exact markerAt_fgIn hm
    · rw [if_neg hm] at hl
      exact Option.noConfusion hl
  · show 1 ≤ (ccReps m.w m.h (markerAt m)).length + 1
    omega
  · intro p L hl
    rw [lookupA_init] at hl
    by_cases hm : markerAt m p = true
    · rw [if_pos hm] at hl
      have hL : L = labelAt m.w m.h (markerAt m) p := (Option.some.inj hl).symm
      show L < (ccReps m.w m.h (markerAt m)).length + 1
      rw [hL, labelAt, if_pos hm]
      have hlt := indexOf_lt_length_beq (ccRep_mem_ccReps Hin hm)
      omega
    · rw [if_neg hm] at hl
      exact Option.noConfusion hl
  · intro L hL a b hla hlb
    rw [lookupA_init] at hla hlb
    by_cases hma : markerAt m a = true
    case neg =>
      rw [if_neg hma] at hla
      exact Option.noConfusion hla
    by_cases hmb : markerAt m b = true
    case neg =>
      rw [if_neg hmb] at hlb
      exact Option.noConfusion hlb
    rw [if_pos hma] at hla
    rw [if_pos hmb] at hlb
    have hLa : labelAt m.w m.h (markerAt m) a = L := Option.some.inj hla
    have hLb : labelAt m.w m.h (markerAt m) b = L := Option.some.inj hlb
    have hrep : ccRep m.w m.h (markerAt m) b = ccRep m.w m.h (markerAt m) a :=
      rep_eq_of_labelAt_eq Hin hmb hma (hLb.trans hLa.symm)
    refine (class_connected Hin hma hmb hrep).mono ?_
    rintro r ⟨hmr, hrr⟩
    rw [lookupA_init, if_pos hmr]
    have hlr : labelAt m.w m.h (markerAt m) r =
        labelAt m.w m.h (markerAt m) a := by
      rw [labelAt, if_pos hmr, labelAt, if_pos hma, hrr]
    rw [hlr, hLa]

theorem floodFinal_inv (m : Mask) : FloodInv m (floodFinal m) :=
  floodIter_inv (m.w * m.h) (initFlood m) (initFlood_inv m)

/-- Membership in the measurement table: a record is exactly a surviving
`statsFor` row of a discovered label. -/
theorem mem_measure {lm : LabelMap} {img : Img} {opts : MeasureOpts}
    {r : PRec} :
    r ∈ measure lm img opts ↔
      ∃ L ∈ labelsFirst lm, statsFor lm img L = r ∧
        keepRec opts (statsFor lm img L) = true := by
  constructor
  · intro hr
    rcases List.mem_filterMap.mp hr with ⟨L, hL, hsome⟩
    by_cases hk : keepRec opts (statsFor lm img L)
    · rw [if_pos hk] at hsome
      exact ⟨L, hL, Option.some.inj hsome, hk⟩
    · rw [if_neg hk] at hsome
      exact Option.noConfusion hsome
  · intro ⟨L, hL, heq, hk⟩
    exact List.mem_filterMap.mpr ⟨L, hL, by rw [if_pos hk, heq]⟩

/-- An image all of whose in-range samples are equal is flat. -/
theorem isFlat_of_const {img : Img} {v : Nat}
    (hv : ∀ x y, x < img.w → y < img.h → img.pix x y = v) :
    isFlat img = true := by
  have hall : ∀ u ∈ imgVals img, u = v := by
    intro u hu
    rcases List.mem_map.mp hu with ⟨p, hp, he⟩
    rcases mem_scanPos.mp hp with ⟨h1, h2⟩
    rw [← he]
    exact hv p.1 p.2 h1 h2
  cases heq : imgVals img with
  | nil => simp [isFlat, heq]
  | cons v₀ rest =>
    have hv₀ : v₀ = v := hall v₀ (by rw [heq]; exact List.mem_cons_self _ _)
    have hrest : ∀ u ∈ rest, u = v₀ := by
      intro u hu
      have hu' : u = v := hall u (by rw [heq]; exact List.mem_cons_of_mem _ hu)
      rw [hu', hv₀]
    simp only [isFlat, heq, List.all_eq_true, beq_iff_eq]
    exact hrest

/-- C3 (counterexample): under the script's own configuration — minimum
area 50 *and* edge exclusion — a component of area exactly 50 that touches
the border is dropped, so "for every input and configuration … a record
whose area equals exactly minArea is retained" is false as stated. -/
theorem area_exact_min_dropped :
    (statsFor lmFull50 imgFull50 1).area = 50 ∧
      1 ∈ labelsFirst lmFull50 ∧
      measure lmFull50 imgFull50 ⟨50, true⟩ = [] := by
  decide

/-- C3 (amended): every record of the output table has area ≥ minArea;
the area test is inclusive at the boundary — a record with area exactly
minArea passes it, so it is retained whenever the edge-exclusion policy
does not drop it. -/
theorem area_filter_inclusive :
    ∀ (lm : LabelMap) (img : Img) (opts : MeasureOpts),
      (∀ r ∈ measure lm img opts, opts.minArea ≤ r.area) ∧
      (∀ r : PRec, r.area = opts.minArea →
        keepRec opts r = (!opts.excludeEdge || !r.onEdge)) ∧
      (∀ L ∈ labelsFirst lm, (statsFor lm img L).area = opts.minArea →
        (opts.excludeEdge = true → touchesBorder lm L = false) →
        statsFor lm img L ∈ measure lm img opts) := by
  intro lm img opts
  refine ⟨?_, ?_, ?_⟩
  · intro r hr
    rcases mem_measure.mp hr with ⟨L, _, heq, hk⟩
    simp only [keepRec, Bool.and_eq_true, decide_eq_true_eq] at hk
    exact heq ▸ hk.1
  · intro r hr
    simp [keepRec, hr]
  · intro L hL harea hedge
    refine mem_measure.mpr ⟨L, hL, rfl, ?_⟩
    simp only [keepRec, harea, Bool.and_eq_true, decide_eq_true_eq]
    refine ⟨le_refl _, ?_⟩
    cases hex : opts.excludeEdge with
    | false => simp
    | true =>
      have : (statsFor lm img L).onEdge = touchesBorder lm L := rfl
      simp [this, hedge hex]

/-- C3 (witness): a full-grid component of area exactly 50 with edge
exclusion off is retained. -/
theorem area_filter_inclusive_witness :
    statsFor lmFull50 imgFull50 1 ∈ measure lmFull50 imgFull50 ⟨50, false⟩ :=
  (area_filter_inclusive lmFull50 imgFull50 ⟨50, false⟩).2.2 1 (by decide)
    (by decide) (fun hx => nomatch hx)

/-- C4 (counterexample): a border-touching component of area 1 is absent
from the output even with `excludeEdgeObjects = false` (the script's
minimum area 50 drops it), so "present with correct statistics when
excludeEdgeObjects=false" is false as stated for every labeled
component. -/
theorem border_component_absent_without_exclusion :
    touchesBorder lmCorner 1 = true ∧ 1 ∈ labelsFirst lmCorner ∧
      measure lmCorner imgCorner ⟨50, false⟩ = [] := by
  decide

/-- C4 (amended): a component with a member pixel on row 0, row `h-1`,
column 0 or column `w-1` never appears in the output when
`excludeEdgeObjects = true`; when `excludeEdgeObjects = false` it appears
— with its measured statistics — provided its area reaches the configured
minimum. -/
theorem border_exclusion_spec :
    ∀ (lm : LabelMap) (img : Img) (mA : Nat) (L : Nat),
      L ∈ labelsFirst lm → touchesBorder lm L = true →
      ((∀ r ∈ measure lm img ⟨mA, true⟩, r.lab ≠ L) ∧
       (mA ≤ (statsFor lm img L).area →
         statsFor lm img L ∈ measure lm img ⟨mA, false⟩)) := by
  intro lm img mA L hL htouch
  constructor
  · intro r hr hlab
    rcases mem_measure.mp hr with ⟨L', _, heq, hk⟩
    have hlab' : (statsFor lm img L').lab = L' := rfl
    have hLL : L' = L := by rw [← hlab, ← heq]; exact hlab'.symm
    subst hLL
    have honE : (statsFor lm img L').onEdge = touchesBorder lm L' := rfl
    simp [keepRec, honE, htouch] at hk
  · intro harea
    refine mem_measure.mpr ⟨L, hL, rfl, ?_⟩
    simp [keepRec, harea]

/-- C4 (witness): the full-grid 10×5 component touches the border; it is
absent from the edge-excluding table and present, with its measured
statistics, in the non-excluding one. -/
theorem border_exclusion_spec_witness :
    (∀ r ∈ measure lmFull50 imgFull50 ⟨50, true⟩, r.lab ≠ 1) ∧
      (statsFor lmFull50 imgFull50 1 ∈ measure lmFull50 imgFull50 ⟨50, false⟩) :=
  ⟨(border_exclusion_spec lmFull50 imgFull50 50 1 (by decide) (by decide)).1,
   (border_exclusion_spec lmFull50 imgFull50 50 1 (by decide) (by decide)).2
     (by decide)⟩

/-- C6 (confirmed): `binarize` is deterministic — two runs on equal
rasters with equal configurations produce bit-identical masks. -/
theorem binarize_deterministic :
    ∀ (r₁ r₂ : Img) (c₁ c₂ : BinCfg), r₁ = r₂ → c₁ = c₂ →
      binarize r₁ c₁ = binarize r₂ c₂ := by
  intro r₁ r₂ c₁ c₂ h1 h2
  rw [h1, h2]

/-- C6 (witness): determinism applied to the 4×4 scenario raster. -/
theorem binarize_deterministic_witness :
    binarize blob4 ⟨true⟩ = binarize blob4 ⟨true⟩ :=
  binarize_deterministic blob4 blob4 ⟨true⟩ ⟨true⟩ rfl rfl

/-- C7 (confirmed): the isodata convergence loop is bounded by its
explicit iteration cap (exhausted fuel returns the current threshold, and
`binarize` runs the loop with cap `isodataCap`), and a perfectly flat
image — every in-range sample equal — deterministically binarizes to the
all-background mask instead of looping. -/
theorem binarize_flat_all_background :
    (∀ (vals : List Nat) (t : Thr), isodataLoop vals 0 t = t) ∧
    (∀ (vals : List Nat), isodataThreshold vals =
      isodataLoop vals isodataCap (meanFrac vals)) ∧
    (∀ (img : Img) (cfg : BinCfg) (v : Nat),
      (∀ x y, x < img.w → y < img.h → img.pix x y = v) →
      ∀ x y, (binarize img cfg).fg x y = false) := by
  refine ⟨fun vals t => rfl, fun vals => rfl, ?_⟩
  intro img cfg v hv x y
  simp [binarize, isFlat_of_const hv]

/-- C7 (witness): cap exhaustion returns the current threshold, and the
flat 3×3 image binarizes to all-background at pixel `(1, 1)`. -/
theorem binarize_flat_all_background_witness :
    isodataLoop [3] 0 (5, 1) = (5, 1) ∧
      (binarize flat3 ⟨true⟩).fg 1 1 = false :=
  ⟨binarize_flat_all_background.1 [3] (5, 1),
   binarize_flat_all_background.2.2 flat3 ⟨true⟩ 7 (fun _ _ _ _ => rfl) 1 1⟩

/-- C2 (confirmed): for every mask, the watershed label map produced by
`segment` carries 0 only on pixels that were background in the input or
that the flood marked as watershed-boundary pixels; every input
foreground pixel ends with a non-zero basin label or becomes a
boundary-background pixel; every background pixel remains background;
and the pixel set of each non-zero label is 8-connected. -/
theorem segment_invariants (m : Mask) :
    (∀ x y, x < m.w → y < m.h → m.fg x y = false →
      (segment m).lab x y = 0) ∧
    (∀ x y, x < m.w → y < m.h → m.fg x y = true →
      (segment m).lab x y ≠ 0 ∨ isBoundary m x y = true) ∧
    (∀ x y, x < m.w → y < m.h → (segment m).lab x y = 0 →
      m.fg x y = false ∨ isBoundary m x y = true) ∧
    (∀ L, L ≠ 0 → ∀ p q : Pos,
      (segment m).lab p.1 p.2 = L → (segment m).lab q.1 q.2 = L →
      ReachIn (fun r => (segment m).lab r.1 r.2 = L) p q) := by
  obtain ⟨inv1, inv2, inv3, inv4⟩ := floodFinal_inv m
  have hlab : ∀ x y, (segment m).lab x y =
      (lookupA (floodFinal m) (x, y)).getD 0 := fun _ _ => rfl
  refine ⟨?_, ?_, ?_, ?_⟩
  · intro x y hx hy hbg
    rw [hlab]
    cases hopt : lookupA (floodFinal m) (x, y) with
    | none => rfl
    | some v =>
      exfalso
      have hfgIn := inv1 (x, y) v hopt
      simp only [fgIn, Bool.and_eq_true, decide_eq_true_eq] at hfgIn
      rw [hbg] at hfgIn
      exact Bool.noConfusion hfgIn.2
  · intro x y hx hy hfg
    have hfgIn : fgIn m (x, y) = true := by
      simp [fgIn, hx, hy, hfg]
    rcases floodFinal_processed hfgIn with ⟨v, hv⟩
    cases v with
    | zero =>
      right
      show (lookupA (floodFinal m) (x, y) == some 0) = true
      rw [hv]
      simp
    | succ k =>
      left
      rw [hlab, hv]
      simp
  · intro x y hx hy hlab0
    by_cases hfg : m.fg x y = true
    · right
      have hfgIn : fgIn m (x, y) = true := by
        simp [fgIn, hx, hy, hfg]
      rcases floodFinal_processed hfgIn with ⟨v, hv⟩
      rw [hlab x y, hv] at hlab0
      simp only [Option.getD_some] at hlab0
      show (lookupA (floodFinal m) (x, y) == some 0) = true
      rw [hv, hlab0]
      simp
    · left
      cases hb : m.fg x y with
      | false => rfl
      | true => exact absurd hb hfg
  · intro L hL p q hp hq
    have hlab' : ∀ r : Pos, (segment m).lab r.1 r.2 =
        (lookupA (floodFinal m) r).getD 0 := fun _ => rfl
    have hchar : ∀ r : Pos,
        (segment m).lab r.1 r.2 = L ↔
          lookupA (floodFinal m) r = some L := by
      intro r
      rw [hlab']
      cases hopt : lookupA (floodFinal m) r with
      | none =>
        simp only [Option.getD_none]
        constructor
        · exact fun h0 => absurd h0.symm hL
        · exact fun hc => Option.noConfusion hc
      | some v =>
        simp only [Option.getD_some, Option.some.injEq]
    have hp' := (hchar p).mp hp
    have hq' := (hchar q).mp hq
    exact (inv4 L (Nat.pos_of_ne_zero hL) p q hp' hq').mono
      (fun r hr => (hchar r).mpr hr)

/-- C2 (witness): on the 2×2-block mask, the background corner pixel
stays background and the foreground pixel `(1, 1)` ends labeled or on a
watershed boundary. -/
theorem segment_invariants_witness :
    (segment mask4).lab 0 0 = 0 ∧
      ((segment mask4).lab 1 1 ≠ 0 ∨ isBoundary mask4 1 1 = true) :=
  ⟨(segment_invariants mask4).1 0 0 (by decide) (by decide) (by decide),
   (segment_invariants mask4).2.1 1 1 (by decide) (by decide) (by decide)⟩

theorem mask_eq_of (m₁ m₂ : Mask) (hw : m₁.w = m₂.w) (hh : m₁.h = m₂.h)
    (hfg : ∀ x y, m₁.fg x y = m₂.fg x y) : m₁ = m₂ := by
  cases m₁
  cases m₂
  simp only at hw hh
  subst hw
  subst hh
  congr 1
  funext x y
  exact hfg x y

theorem lm_eq_of (l₁ l₂ : LabelMap) (hw : l₁.w = l₂.w) (hh : l₁.h = l₂.h)
    (hlab : ∀ x y, l₁.lab x y = l₂.lab x y) : l₁ = l₂ := by
  cases l₁
  cases l₂
  simp only at hw hh
  subst hw
  subst hh
  congr 1
  funext x y
  exact hlab x y

theorem binarize_fg_out {img : Img} {cfg : BinCfg} {x y : Nat}
    (hout : ¬(x < img.w ∧ y < img.h)) :
    (binarize img cfg).fg x y = false := by
  rw [binarize]
  split
  · rfl
  · show (decide (x < img.w) && decide (y < img.h) && _) = false
    rcases not_and_or.mp hout with hx | hy
    · simp [hx]
    · simp [hy]

theorem mask4_fg_out {x y : Nat} (hout : ¬(x < 4 ∧ y < 4)) :
    mask4.fg x y = false := by
  show (decide (x < 4) && decide (y < 4) && _) = false
  rcases not_and_or.mp hout with hx | hy
  · simp [hx]
  · simp [hy]

set_option maxRecDepth 40000 in
theorem binarize_blob4_r1 : binarize (denoise blob4 1) ⟨true⟩ = mask4 := by
  refine mask_eq_of _ _ rfl rfl ?_
  intro x y
  by_cases hin : x < 4 ∧ y < 4
  · obtain ⟨hx, hy⟩ := hin
    interval_cases x <;> interval_cases y <;> decide
  · rw [binarize_fg_out hin, mask4_fg_out hin]

set_option maxRecDepth 40000 in
theorem floodFinal_mask4 :
    floodFinal mask4 =
      ⟨[((1, 1), 1), ((2, 1), 1), ((1, 2), 1), ((2, 2), 1)], 2⟩ := by
  decide

set_option maxRecDepth 40000 in
theorem watershedMask_mask4 : watershedMask mask4 = mask4 := by
  refine mask_eq_of _ _ rfl rfl ?_
  intro x y
  show ((segment mask4).lab x y != 0) = mask4.fg x y
  have hseg : (segment mask4).lab x y =
      (lookupA (floodFinal mask4) (x, y)).getD 0 := rfl
  rw [hseg, floodFinal_mask4]
  by_cases hin : x < 4 ∧ y < 4
  · obtain ⟨hx, hy⟩ := hin
    interval_cases x <;> interval_cases y <;> decide
  · have hnone : lookupA
        ⟨[((1, 1), 1), ((2, 1), 1), ((1, 2), 1), ((2, 2), 1)], 2⟩
        (x, y) = none := by
      rw [lookupA, Option.map_eq_none', List.find?_eq_none]
      intro e he
      fin_cases he <;> simp only [beq_iff_eq, Prod.mk.injEq, not_and] <;>
        omega
    rw [hnone, mask4_fg_out hin]
    rfl

set_option maxRecDepth 40000 in
theorem label_mask4 : label mask4 = lm4 := by
  refine lm_eq_of _ _ rfl rfl ?_
  intro x y
  by_cases hin : x < 4 ∧ y < 4
  · obtain ⟨hx, hy⟩ := hin
    interval_cases x <;> interval_cases y <;> decide
  · have hfg : fgIn mask4 (x, y) = false := by
      rcases not_and_or.mp hin with hx | hy
      · simp [fgIn, mask4, hx]
      · simp [fgIn, mask4, hy]
    show labelAt 4 4 (fgIn mask4) (x, y) = lm4.lab x y
    rw [labelAt, if_neg (by simp [hfg])]
    have hlm : lm4.lab x y = 0 := by
      show (if (decide (x < 4) && decide (y < 4) &&
          ((x == 1 || x == 2) && (y == 1 || y == 2))) = true
        then 1 else 0) = 0
      rcases not_and_or.mp hin with hx | hy
      · simp [hx]
      · simp [hy]
    rw [hlm]

set_option maxRecDepth 40000 in
theorem measure_lm4 :
    measure lm4 (maskToImg mask4) ⟨1, false⟩ = [rec4] := by
  decide

theorem pipelineCore_blob4_r1 : pipelineCore blob4 cfgR1 = [rec4] := by
  show measure (label (watershedMask (binarize (denoise blob4 1) ⟨true⟩)))
    (maskToImg (watershedMask (binarize (denoise blob4 1) ⟨true⟩)))
    ⟨1, false⟩ = [rec4]
  rw [binarize_blob4_r1, watershedMask_mask4, label_mask4, measure_lm4]

set_option maxRecDepth 40000 in
theorem binarize_blob4_r2 : binarize (denoise blob4 2) ⟨true⟩ = maskE := by
  have hflat : isFlat (denoise blob4 2) = true := by decide
  rw [binarize, if_pos hflat]
  rfl

set_option maxRecDepth 40000 in
theorem floodFinal_maskE : floodFinal maskE = ⟨[], 1⟩ := by decide

theorem watershedMask_maskE : watershedMask maskE = maskE := by
  refine mask_eq_of _ _ rfl rfl ?_
  intro x y
  show ((lookupA (floodFinal maskE) (x, y)).getD 0 != 0) = false
  rw [floodFinal_maskE]
  rfl

theorem label_maskE : label maskE = lmE := by
  refine lm_eq_of _ _ rfl rfl ?_
  intro x y
  show labelAt 4 4 (fgIn maskE) (x, y) = 0
  rw [labelAt, if_neg (by simp [fgIn, maskE])]

theorem measure_lmE : measure lmE (maskToImg maskE) ⟨1, false⟩ = [] := by
  decide

theorem pipelineCore_blob4_r2 : pipelineCore blob4 cfgR2 = [] := by
  show measure (label (watershedMask (binarize (denoise blob4 2) ⟨true⟩)))
    (maskToImg (watershedMask (binarize (denoise blob4 2) ⟨true⟩)))
    ⟨1, false⟩ = []
  rw [binarize_blob4_r2, watershedMask_maskE, label_maskE, measure_lmE]

/-- C5 (counterexample): the 4×4 end-to-end scenario fails as stated on
the modelled pipeline: at the spec's default (and the script's) median
radius 2 the radius-2 median erases the 2×2 block, so the output table is
empty rather than holding one record; and even at the smallest admissible
radius 1, the single record's mean intensity is 255 — the measurement
reads the post-binarization mask because of `redirect=None` — not 0. -/
theorem scenario_blob4_fails :
    pipelineCore blob4 cfgR2 = [] ∧
      (pipelineCore blob4 cfgR1).map PRec.meanI = [255] ∧
      ¬(255 : ℚ) = 0 := by
  refine ⟨pipelineCore_blob4_r2, ?_, by norm_num⟩
  rw [pipelineCore_blob4_r1]
  show [PRec.meanI rec4] = [255]
  rw [show PRec.meanI rec4 = ((1020 : Nat) : ℚ) / ((4 : Nat) : ℚ) from rfl]
  norm_num

/-- C5 (amended): on the 4×4 raster with the 2×2 zero block, the pipeline
with the default median radius 2 produces an empty table (the median
erases the block before binarization); with median radius 1 it produces
exactly one record with area 4 and centroid `(3/2, 3/2)`, whose intensity
statistics — mean 255, min 255, max 255 — are read from the
post-binarization mask raster (`redirect=None`), not from the grayscale
source. -/
theorem scenario_blob4_amended :
    pipelineCore blob4 cfgR2 = [] ∧
      pipelineCore blob4 cfgR1 = [rec4] ∧
      rec4.area = 4 ∧ PRec.cx rec4 = 3 / 2 ∧ PRec.cy rec4 = 3 / 2 ∧
      PRec.meanI rec4 = 255 ∧ rec4.minI = 255 ∧ rec4.maxI = 255 := by
  refine ⟨pipelineCore_blob4_r2, pipelineCore_blob4_r1, rfl, ?_, ?_, ?_,
    rfl, rfl⟩
  · rw [show PRec.cx rec4 = ((6 : Nat) : ℚ) / ((4 : Nat) : ℚ) from rfl]
    norm_num
  · rw [show PRec.cy rec4 = ((6 : Nat) : ℚ) / ((4 : Nat) : ℚ) from rfl]
    norm_num
  · rw [show PRec.meanI rec4 = ((1020 : Nat) : ℚ) / ((4 : Nat) : ℚ) from rfl]
    norm_num

/-- C1 (counterexample): with `redirect=None` (script line 9) the
measurement reads the current image — the post-binarization mask — so the
blob's recorded intensity sum is 4·255 = 1020, while the sum over the
pre-binarization grayscale source (the denoised raster, where the blob
has intensity 0) is 0: intensity statistics are not read from the
pre-binarization grayscale. -/
theorem measure_not_from_grayscale :
    (pipelineCore blob4 cfgR1).map PRec.sumI = [1020] ∧
      sumOver (denoise blob4 1)
        (membersOf (pipelineLabelMap blob4 cfgR1) 1) = 0 ∧
      ¬(1020 : Nat) = 0 := by
  refine ⟨?_, ?_, by decide⟩
  · rw [pipelineCore_blob4_r1]
    rfl
  · have hplm : pipelineLabelMap blob4 cfgR1 = lm4 := by
      show label (watershedMask (binarize (denoise blob4 1) ⟨true⟩)) = lm4
      rw [binarize_blob4_r1, watershedMask_mask4, label_mask4]
    rw [hplm]
    decide

/-- C1 (amended): every record of a measurement call accumulates the
pixel count of its label, the sum/min/max intensity of the raster passed
as the intensity source, and the coordinate sums whose quotients by the
area are the centroid (the mean member position); and in the pipeline the
intensity source passed to `measure` is the post-binarization mask
raster (the current image under `redirect=None`), not the
pre-binarization grayscale. -/
theorem measure_stats :
    (∀ (lm : LabelMap) (img : Img) (opts : MeasureOpts) (r : PRec),
      r ∈ measure lm img opts →
        r.area = (membersOf lm r.lab).length ∧
        r.sumI = sumOver img (membersOf lm r.lab) ∧
        r.minI = minOver
          ((membersOf lm r.lab).map (fun p => img.pix p.1 p.2)) ∧
        r.maxI = maxOver
          ((membersOf lm r.lab).map (fun p => img.pix p.1 p.2)) ∧
        r.sumX = ((membersOf lm r.lab).map (fun p => p.1)).foldl (· + ·) 0 ∧
        r.sumY = ((membersOf lm r.lab).map (fun p => p.2)).foldl (· + ·) 0 ∧
        PRec.meanI r = (r.sumI : ℚ) / (r.area : ℚ) ∧
        PRec.cx r = (r.sumX : ℚ) / (r.area : ℚ) ∧
        PRec.cy r = (r.sumY : ℚ) / (r.area : ℚ)) ∧
    (∀ (g : Img) (c : Config), pipelineCore g c =
      measure (pipelineLabelMap g c) (maskToImg (pipelineMask g c))
        ⟨c.minArea, c.excludeEdge⟩) := by
  constructor
  · intro lm img opts r hr
    rcases mem_measure.mp hr with ⟨L, _, heq, _⟩
    subst heq
    exact ⟨rfl, rfl, rfl, rfl, rfl, rfl, rfl, rfl, rfl⟩
  · intro g c
    rfl

set_option maxRecDepth 40000 in
/-- C1 (witness): the stats theorem applied to the radius-1 run's record,
with its table membership discharged by evaluation. -/
theorem measure_stats_witness :
    rec4.area = (membersOf lm4 rec4.lab).length ∧
      rec4.sumI = sumOver (maskToImg mask4) (membersOf lm4 rec4.lab) :=
  ⟨(measure_stats.1 lm4 (maskToImg mask4) ⟨1, false⟩ rec4 (by decide)).1,
   (measure_stats.1 lm4 (maskToImg mask4) ⟨1, false⟩ rec4 (by decide)).2.1⟩

/-- Non-zero labels characterize the foreground of the labeling. -/
theorem labelAt_ne_zero_iff {w h : Nat} {P : Pos → Bool} {p : Pos} :
    (labelAt w h P p != 0) = P p := by
  cases hP : P p with
  | true => simp [labelAt, hP]
  | false => simp [labelAt, hP]

/-- Feeding the labeling back as a mask recovers the canonical foreground
predicate of the original mask. -/
theorem fgIn_toMask_label (m : Mask) :
    fgIn (toMask (label m)) = fgIn m := by
  funext p
  show (decide (p.1 < m.w) && decide (p.2 < m.h) &&
      ((label m).lab p.1 p.2 != 0)) = fgIn m p
  rw [show ((label m).lab p.1 p.2 != 0) = fgIn m p from labelAt_ne_zero_iff]
  unfold fgIn
  cases decide (p.1 < m.w) <;> cases decide (p.2 < m.h) <;>
    cases m.fg p.1 p.2 <;> rfl

/-- C8 (confirmed): relabeling an already-labeled map is a fixed point —
the labeling of the mask of non-zero labels equals the original labeling
on the nose, so in particular the partition of pixels into components
(ignoring the numbering) is unchanged. -/
theorem label_idempotent :
    ∀ m : Mask, label (toMask (label m)) = label m ∧
      ∀ p q : Pos,
        ((label (toMask (label m))).lab p.1 p.2 =
            (label (toMask (label m))).lab q.1 q.2 ↔
          (label m).lab p.1 p.2 = (label m).lab q.1 q.2) := by
  intro m
  have he : label (toMask (label m)) = label m := by
    show (⟨m.w, m.h,
      fun x y => labelAt m.w m.h (fgIn (toMask (label m))) (x, y)⟩ : LabelMap) =
      ⟨m.w, m.h, fun x y => labelAt m.w m.h (fgIn m) (x, y)⟩
    rw [fgIn_toMask_label]
  exact ⟨he, fun p q => by rw [he]⟩

theorem mem_insertSorted {v : Nat} :
    ∀ {l : List Nat} {u : Nat}, u ∈ insertSorted v l → u = v ∨ u ∈ l := by
  intro l
  induction l with
  | nil =>
    intro u hu
    rcases List.mem_singleton.mp hu with rfl
    exact Or.inl rfl
  | cons a t ih =>
    intro u hu
    rw [insertSorted] at hu
    split at hu
    · rcases List.mem_cons.mp hu with rfl | hu'
      · exact Or.inl rfl
      · exact Or.inr hu'
    · rcases List.mem_cons.mp hu with rfl | hu'
      · exact Or.inr (List.mem_cons_self _ _)
      · rcases ih hu' with rfl | hu''
        · exact Or.inl rfl
        · exact Or.inr (List.mem_cons_of_mem _ hu'')

theorem mem_sortAsc :
    ∀ {l : List Nat} {u : Nat}, u ∈ sortAsc l → u ∈ l := by
  intro l
  induction l with
  | nil => intro u hu; exact absurd hu (List.not_mem_nil u)
  | cons a t ih =>
    intro u hu
    rcases mem_insertSorted hu with rfl | hu'
    · exact List.mem_cons_self _ _
    · exact List.mem_cons_of_mem _ (ih hu')

theorem length_insertSorted (v : Nat) :
    ∀ (l : List Nat), (insertSorted v l).length = l.length + 1 := by
  intro l
  induction l with
  | nil => rfl
  | cons a t ih =>
    rw [insertSorted]
    split
    · simp
    · simp only [List.length_cons, ih]

theorem length_sortAsc :
    ∀ (l : List Nat), (sortAsc l).length = l.length := by
  intro l
  induction l with
  | nil => rfl
  | cons a t ih =>
    show (insertSorted a (sortAsc t)).length = t.length + 1
    rw [length_insertSorted, ih]

theorem medianOf_const {l : List Nat} {v : Nat} (hne : l ≠ [])
    (hall : ∀ u ∈ l, u = v) : medianOf l = v := by
  rw [medianOf]
  have hlen : (l.length - 1) / 2 < (sortAsc l).length := by
    rw [length_sortAsc]
    have : 0 < l.length := List.length_pos.mpr hne
    omega
  rw [List.getD_eq_getElem?_getD, List.getElem?_eq_getElem hlen]
  exact hall _ (mem_sortAsc (List.getElem_mem hlen))

theorem denoise_const {g : Img} {v : Nat} (r : Nat)
    (hall : ∀ x y, x < g.w → y < g.h → g.pix x y = v) :
    ∀ x y, x < g.w → y < g.h → (denoise g r).pix x y = v := by
  intro x y hx hy
  show (if x < g.w ∧ y < g.h then medianOf (diskVals g r x y) else 0) = v
  rw [if_pos ⟨hx, hy⟩]
  have hself : g.pix x y ∈ diskVals g r x y := by
    refine List.mem_map.mpr ⟨(x, y), List.mem_filter.mpr
      ⟨mem_scanPos.mpr ⟨hx, hy⟩, ?_⟩, rfl⟩
    simp only [sub_self, decide_eq_true_eq]
    positivity
  refine medianOf_const (List.ne_nil_of_mem hself) ?_
  intro u hu
  rcases List.mem_map.mp hu with ⟨q, hq, he⟩
  rcases mem_scanPos.mp (List.mem_filter.mp hq).1 with ⟨h1, h2⟩
  rw [← he]
  exact hall q.1 q.2 h1 h2

theorem fgIn_false_all {m : Mask} (hbg : ∀ x y, m.fg x y = false) :
    ∀ p : Pos, fgIn m p = false := by
  intro p
  show (decide (p.1 < m.w) && decide (p.2 < m.h) && m.fg p.1 p.2) = false
  rw [hbg]
  simp

theorem pick_none_of_empty {m : Mask} {st : FloodState}
    (hfg : ∀ p : Pos, fgIn m p = false) : pick m st = none := by
  have hc : (scanPos m.w m.h).filter (unproc m st) = [] := by
    rw [List.filter_eq_nil_iff]
    intro p _
    simp [unproc, hfg p]
  simp only [pick, hc, List.filter_nil]
  rfl

theorem floodIter_empty {m : Mask} (hfg : ∀ p : Pos, fgIn m p = false) :
    ∀ (n : Nat) (st : FloodState), floodIter m n st = st := by
  intro n
  induction n with
  | zero => exact fun st => rfl
  | succ k ih =>
    intro st
    rw [floodIter]
    have hstep : stepFlood m st = st := by
      rw [stepFlood, pick_none_of_empty hfg]
    rw [hstep]
    exact ih st

theorem initFlood_assigned_empty {m : Mask}
    (hfg : ∀ p : Pos, fgIn m p = false) :
    (initFlood m).assigned = [] := by
  show (((scanPos m.w m.h).filter (markerAt m)).map
    (fun p => (p, labelAt m.w m.h (markerAt m) p))) = []
  have hmk : (scanPos m.w m.h).filter (markerAt m) = [] := by
    rw [List.filter_eq_nil_iff]
    intro p _
    simp [markerAt, hfg p]
  rw [hmk]
  rfl

theorem pipelineCore_flat {g : Img} {c : Config} {v : Nat}
    (hv : ∀ x y, x < g.w → y < g.h → g.pix x y = v) :
    pipelineCore g c = [] := by
  have hflat : isFlat (denoise g c.medianRadius.toNat) = true :=
    isFlat_of_const (denoise_const c.medianRadius.toNat hv)
  have hbinfg : ∀ x y,
      (binarize (denoise g c.medianRadius.toNat) ⟨c.darkObjects⟩).fg x y
        = false := by
    intro x y
    rw [binarize, if_pos hflat]
  have hfgF : ∀ p : Pos,
      fgIn (binarize (denoise g c.medianRadius.toNat) ⟨c.darkObjects⟩) p
        = false := fgIn_false_all hbinfg
  have hws : ∀ x y, (pipelineMask g c).fg x y = false := by
    intro x y
    show ((lookupA (floodFinal
      (binarize (denoise g c.medianRadius.toNat) ⟨c.darkObjects⟩)) (x, y)
        ).getD 0 != 0) = false
    have hff : floodFinal
        (binarize (denoise g c.medianRadius.toNat) ⟨c.darkObjects⟩) =
        initFlood
          (binarize (denoise g c.medianRadius.toNat) ⟨c.darkObjects⟩) :=
      floodIter_empty hfgF _ _
    rw [hff, lookupA, initFlood_assigned_empty hfgF]
    rfl
  have hfgW : ∀ p : Pos, fgIn (pipelineMask g c) p = false :=
    fgIn_false_all hws
  have hlab : ∀ x y, (pipelineLabelMap g c).lab x y = 0 := by
    intro x y
    show labelAt (pipelineMask g c).w (pipelineMask g c).h
      (fgIn (pipelineMask g c)) (x, y) = 0
    rw [labelAt, if_neg (by simp [hfgW (x, y)])]
  have hlf : labelsFirst (pipelineLabelMap g c) = [] := by
    rw [labelsFirst]
    have hnil : (((scanPos (pipelineLabelMap g c).w
        (pipelineLabelMap g c).h).map
        (fun p => (pipelineLabelMap g c).lab p.1 p.2)).filter
        (fun L => L ≠ 0)) = [] := by
      rw [List.filter_eq_nil_iff]
      intro L hL
      rcases List.mem_map.mp hL with ⟨p, _, he⟩
      rw [← he, hlab]
      simp
    rw [hnil]
    rfl
  show measure (pipelineLabelMap g c) (maskToImg (pipelineMask g c))
    ⟨c.minArea, c.excludeEdge⟩ = []
  rw [measure, hlf]
  rfl

/-- C9 (confirmed): the pipeline fails exactly on an invalid parameter
(`ConfigError`: non-positive median radius or connectivity outside
`{4, 8}`, rejected before any processing starts) or on a zero-sized
raster (`EmptyInputError`); with a valid configuration and a non-empty
raster it always returns the table, and a flat image yields the
degenerate-but-valid empty table.  The `Except` result carries either the
originating error unchanged or the complete table — never partial
results. -/
theorem pipeline_error_taxonomy :
    ∀ (g : Img) (c : Config),
      (isErr (runBlobPipeline g c) = true ↔
        (¬0 < c.medianRadius ∨
          (c.connectivity ≠ 4 ∧ c.connectivity ≠ 8) ∨
          g.w = 0 ∨ g.h = 0)) ∧
      (validConfig c = false →
        runBlobPipeline g c = .error .configError) ∧
      (validConfig c = true → (g.w = 0 ∨ g.h = 0) →
        runBlobPipeline g c = .error .emptyInputError) ∧
      (validConfig c = true → g.w ≠ 0 → g.h ≠ 0 →
        runBlobPipeline g c = .ok (pipelineCore g c)) ∧
      (∀ v : Nat, validConfig c = true → g.w ≠ 0 → g.h ≠ 0 →
        (∀ x y, x < g.w → y < g.h → g.pix x y = v) →
        runBlobPipeline g c = .ok []) := by
  intro g c
  have hvc : validConfig c = false ↔
      (¬0 < c.medianRadius ∨
        (c.connectivity ≠ 4 ∧ c.connectivity ≠ 8)) := by
    by_cases h1 : 0 < c.medianRadius <;>
      by_cases h2 : c.connectivity = 4 <;>
        by_cases h3 : c.connectivity = 8 <;>
          simp [validConfig, h1, h2, h3]
  have hrun2 : validConfig c = false →
      runBlobPipeline g c = .error .configError := by
    intro hvf
    rw [runBlobPipeline, if_pos hvf]
  have hrun3 : validConfig c = true → (g.w = 0 ∨ g.h = 0) →
      runBlobPipeline g c = .error .emptyInputError := by
    intro hvt hz
    rw [runBlobPipeline, if_neg (by rw [hvt]; exact Bool.noConfusion),
      if_pos (by rcases hz with h | h <;> simp [h])]
  have hrun4 : validConfig c = true → g.w ≠ 0 → g.h ≠ 0 →
      runBlobPipeline g c = .ok (pipelineCore g c) := by
    intro hvt hw hh
    rw [runBlobPipeline, if_neg (by rw [hvt]; exact Bool.noConfusion),
      if_neg (by simp [hw, hh])]
  refine ⟨⟨?_, ?_⟩, hrun2, hrun3, hrun4, ?_⟩
  · intro herr
    by_cases hv : validConfig c = false
    · exact Or.elim (hvc.mp hv) Or.inl (fun hcn => Or.inr (Or.inl hcn))
    · have hvt : validConfig c = true := by
        cases hvv : validConfig c
        · exact absurd hvv hv
        · rfl
      by_cases hz : g.w = 0 ∨ g.h = 0
      · exact Or.inr (Or.inr hz)
      · push_neg at hz
        rw [hrun4 hvt hz.1 hz.2] at herr
        simp [isErr] at herr
  · intro hrhs
    by_cases hv : validConfig c = false
    · rw [hrun2 hv]
      rfl
    · have hvt : validConfig c = true := by
        cases hvv : validConfig c
        · exact absurd hvv hv
        · rfl
      rcases hrhs with h | h | h | h
      · exact absurd (hvc.mpr (Or.inl h)) hv
      · exact absurd (hvc.mpr (Or.inr h)) hv
      · rw [hrun3 hvt (Or.inl h)]
        rfl
      · rw [hrun3 hvt (Or.inr h)]
        rfl
  · intro v hvt hw hh hflatv
    rw [hrun4 hvt hw hh, pipelineCore_flat hflatv]

/-- C9 (witness): an invalid (zero-radius) configuration is rejected with
`ConfigError`, and a flat image with a valid configuration gives the
empty table, not an error. -/
theorem pipeline_error_taxonomy_witness :
    runBlobPipeline blob4 cfgBad = .error .configError ∧
      runBlobPipeline flat3 cfgR1 = .ok [] :=
  ⟨(pipeline_error_taxonomy blob4 cfgBad).2.1 (by decide),
   (pipeline_error_taxonomy flat3 cfgR1).2.2.2.2 7 (by decide) (by decide)
     (by decide) (fun _ _ _ _ => rfl)⟩

/-- C10 (confirmed): the script runs every stage in place on one single
image object: the raster that the measurement of lines 9–10 reads
(`redirect=None`) is the watershedded binary mask that lines 6–8 wrote
over `imp` — it carries only the values 0 and 255, and it is fully
determined by the binarization result (two inputs with equal masks give
identical measurement inputs), so the pre-binarization grayscale
intensities no longer exist in the image the measurement step reads. -/
theorem script_single_image :
    ∀ g : Img,
      (scriptMeasureInput g =
        maskToImg (watershedMask (imgToMask (maskToImg
          (binarize (denoise g 2) ⟨true⟩))))) ∧
      (∀ x y, (scriptMeasureInput g).pix x y = 0 ∨
        (scriptMeasureInput g).pix x y = 255) ∧
      (∀ g' : Img,
        binarize (denoise g' 2) ⟨true⟩ = binarize (denoise g 2) ⟨true⟩ →
        scriptMeasureInput g' = scriptMeasureInput g) := by
  intro g
  refine ⟨rfl, ?_, ?_⟩
  · intro x y
    have hpix : (scriptMeasureInput g).pix x y =
        (if fgIn (watershedMask (imgToMask (maskToImg
          (binarize (denoise g 2) ⟨true⟩)))) (x, y) = true
         then 255 else 0) := rfl
    rw [hpix]
    by_cases hc : fgIn (watershedMask (imgToMask (maskToImg
        (binarize (denoise g 2) ⟨true⟩)))) (x, y) = true
    · exact Or.inr (if_pos hc)
    · exact Or.inl (if_neg hc)
  · intro g' hB
    show maskToImg (watershedMask (imgToMask (maskToImg
      (binarize (denoise g' 2) ⟨true⟩)))) =
      maskToImg (watershedMask (imgToMask (maskToImg
        (binarize (denoise g 2) ⟨true⟩))))
    rw [hB]

/-- C10 (witness): the in-place theorem applied at the 4×4 scenario
raster: the measured pixel `(0, 0)` is binary, and equal masks give the
identical measurement input. -/
theorem script_single_image_witness :
    ((scriptMeasureInput blob4).pix 0 0 = 0 ∨
      (scriptMeasureInput blob4).pix 0 0 = 255) ∧
      scriptMeasureInput blob4 = scriptMeasureInput blob4 :=
  ⟨(script_single_image blob4).2.1 0 0,
   (script_single_image blob4).2.2 blob4 rfl⟩

end BlobAnalysis
